import Mathlib

/-!
Verification development for `enhanced_insights.py` (session analytics pipeline).

The definitions below are a shallow embedding, translated function by function
from the Python source:

* `extract_json_object` (source lines 188-200), built on a model of Python's
  `json.JSONDecoder.raw_decode` incremental scanner (`parseStep`);
* the transcript chunker of `summarize_long_transcript` (lines 593-595);
* the per-session metric fold of `extract_session_metrics` restricted to the
  fields the analysed properties mention (user/assistant message counts,
  timestamps and duration, response-latency samples, tool-error counts and
  categories);
* the facet-extraction result handling of `extract_facets` (lines 643-657),
  the facet cache (`load_cached_facet` / `save_facet`), the per-batch result
  loop of `main` (lines 1593-1604), the trivial-session filter (line 1538) and
  the warmup re-filter `is_warmup_only` (lines 1609-1618).

Machine reals never appear: timestamps are modelled as integer epoch seconds
(the code compares whole-second deltas against integer bounds and truncates
minute durations with Python `int`, i.e. truncation towards zero).
-/

namespace EnhancedInsights

/-! ## JSON values

Result values of Python's `json` scanner.  Numbers keep their literal shape:
an integer literal becomes `int`; a literal with a fraction or exponent
becomes `float` (sign, integer digits, fraction digits, exponent value), and
the `NaN` / `Infinity` / `-Infinity` constants that Python's decoder accepts
by default get their own constructors.  Objects are key/value lists built with
Python's `dict` semantics (duplicate keys: last value wins, first position
kept). -/

inductive Json where
  | null
  | bool (b : Bool)
  | int (n : Int)
  | float (neg : Bool) (ip fp : List Char) (ex : Int)
  | nan
  | inf (neg : Bool)
  | str (s : String)
  | arr (elems : List Json)
  | obj (members : List (String × Json))

/-- Python `dict` assignment `d[k] = v`: update in place if the key exists,
otherwise append at the end. -/
def insertKV : List (String × Json) → String → Json → List (String × Json)
  | [], k, v => [(k, v)]
  | (k', v') :: rest, k, v =>
      if k' = k then (k', v) :: rest else (k', v') :: insertKV rest k v

/-- `dict(pairs)`: fold the parsed member list left to right with `dict`
assignment (duplicate keys: last value wins). -/
def mkDict (pairs : List (String × Json)) : List (String × Json) :=
  pairs.foldl (fun acc kv => insertKV acc kv.1 kv.2) []

/-- Python truthiness (`if not facet`, `if cached`, `if v`) on JSON-decoded
values.  A float literal is falsy exactly when all its digits are zero. -/
def pyTruthy : Json → Bool
  | .null => false
  | .bool b => b
  | .int n => decide (n ≠ 0)
  | .float _ ip fp _ => !((ip ++ fp).all (fun c => c = '0'))
  | .nan => true
  | .inf _ => true
  | .str s => !(s = "")
  | .arr es => !es.isEmpty
  | .obj ms => !ms.isEmpty

/-! ## The incremental JSON scanner (`json.JSONDecoder.raw_decode`)

`extract_json_object` relies on `raw_decode`, CPython's incremental scanner.
The scanner is modelled as one fuel-indexed step function over a mode
argument; fuel `2 * length + 2` always suffices and the fuel-monotonicity
lemma below makes the exact bound irrelevant.  Whitespace, strings (escapes,
`\uXXXX`, surrogate-pair joining, strict-mode control-character rejection) and
the number grammar `(-?(?:0|[1-9]\d*))(\.\d+)?([eE][-+]?\d+)?` follow
CPython's `_json` scanner.  The only divergence: a lone surrogate (legal in a
Python `str`) is not a valid Lean scalar, so `Char.ofNat` maps it to NUL;
no analysed property touches lone surrogates. -/

def jsonWs (c : Char) : Bool := c = ' ' || c = '\t' || c = '\n' || c = '\r'

def skipWs : List Char → List Char
  | [] => []
  | c :: cs => if jsonWs c then skipWs cs else c :: cs

def takeDigits : List Char → List Char × List Char
  | [] => ([], [])
  | c :: cs =>
      if c.isDigit then
        let p := takeDigits cs
        (c :: p.1, p.2)
      else ([], c :: cs)

def digitsToNat (ds : List Char) : Nat :=
  ds.foldl (fun acc c => acc * 10 + (c.toNat - '0'.toNat)) 0

def hexDigitVal (c : Char) : Option Nat :=
  if '0' ≤ c ∧ c ≤ '9' then some (c.toNat - '0'.toNat)
  else if 'a' ≤ c ∧ c ≤ 'f' then some (c.toNat - 'a'.toNat + 10)
  else if 'A' ≤ c ∧ c ≤ 'F' then some (c.toNat - 'A'.toNat + 10)
  else none

def hex4 (a b c d : Char) : Option Nat :=
  match hexDigitVal a, hexDigitVal b, hexDigitVal c, hexDigitVal d with
  | some va, some vb, some vc, some vd => some (((va * 16 + vb) * 16 + vc) * 16 + vd)
  | _, _, _, _ => none

/-- The named escapes of the JSON string grammar (`\" \\ \/ \b \f \n \r \t`). -/
def escMap (c : Char) : Option Char :=
  if c = '"' then some '"'
  else if c = '\\' then some '\\'
  else if c = '/' then some '/'
  else if c = 'b' then some (Char.ofNat 8)
  else if c = 'f' then some (Char.ofNat 12)
  else if c = 'n' then some '\n'
  else if c = 'r' then some '\r'
  else if c = 't' then some '\t'
  else none

def listStartsWith : List Char → List Char → Bool
  | _, [] => true
  | [], _ :: _ => false
  | c :: r, pc :: pr => c = pc && listStartsWith r pr

/-- Digits of the exponent after an optional sign; failing that, backtrack to
`orig` (the regex leaves an incomplete `[eE][-+]?` unconsumed). -/
def expDigits (orig : List Char) (sign : Int) (r1 : List Char) : Bool × Int × List Char :=
  match r1 with
  | [] => (false, 0, orig)
  | d :: rr2 =>
      if d.isDigit then
        let p := takeDigits rr2
        (true, sign * Int.ofNat (digitsToNat (d :: p.1)), p.2)
      else (false, 0, orig)

/-- Optional exponent sign. -/
def expSign (orig : List Char) (r : List Char) : Bool × Int × List Char :=
  match r with
  | [] => (false, 0, orig)
  | s :: rr =>
      if s = '+' then expDigits orig 1 rr
      else if s = '-' then expDigits orig (-1) rr
      else expDigits orig 1 (s :: rr)

/-- The exponent part of the number regex: `([eE][-+]?\d+)?`, with
backtracking (an `e` not followed by digits is left unconsumed). -/
def expPart (l : List Char) : Bool × Int × List Char :=
  match l with
  | [] => (false, 0, [])
  | e :: r => if e = 'e' ∨ e = 'E' then expSign (e :: r) r else (false, 0, e :: r)

/-- The fraction part of the number regex: `(\.\d+)?`, with backtracking (a
`.` not followed by a digit is left unconsumed). -/
def fracPart (rest : List Char) : List Char × List Char :=
  match rest with
  | [] => ([], [])
  | c :: r1 =>
      if c = '.' then
        match r1 with
        | [] => ([], c :: r1)
        | d :: r =>
            if d.isDigit then
              let p := takeDigits r
              (d :: p.1, p.2)
            else ([], c :: r1)
      else ([], c :: r1)

/-- Fraction and exponent of the number regex after the integer part; a
literal with neither stays an `int`. -/
def numAfterInt (neg : Bool) (ip : List Char) (rest : List Char) : Json × List Char :=
  let fr := fracPart rest
  let ex := expPart fr.2
  if fr.1 = [] ∧ ex.1 = false then
    (Json.int ((if neg then (-1 : Int) else 1) * Int.ofNat (digitsToNat ip)), rest)
  else (Json.float neg ip fr.1 ex.2.1, ex.2.2)

/-- The integer part `(?:0|[1-9]\d*)` and what follows (a leading `0` is not
followed by more integer digits). -/
def parseNumCore (neg : Bool) (l1 : List Char) : Option (Json × List Char) :=
  match l1 with
  | [] => none
  | c :: r2 =>
      if c = '0' then some (numAfterInt neg ['0'] r2)
      else if c.isDigit then
        let p := takeDigits r2
        some (numAfterInt neg (c :: p.1) p.2)
      else none

/-- The number regex `(-?(?:0|[1-9]\d*))(\.\d+)?([eE][-+]?\d+)?` matched at
the current position (maximal munch per component). -/
def parseNumber (l : List Char) : Option (Json × List Char) :=
  match l with
  | [] => none
  | c :: r => if c = '-' then parseNumCore true r else parseNumCore false (c :: r)

def strNull : List Char := "null".toList
def strTrue : List Char := "true".toList
def strFalse : List Char := "false".toList
def strNaN : List Char := "NaN".toList
def strInf : List Char := "Infinity".toList
def strNegInf : List Char := "-Infinity".toList

/-- Outcome of the C scanner's surrogate-pair lookahead after a high
surrogate `\uXXXX`: a following `\u` escape with four hex digits forming a
low surrogate joins into one code point; a following `\u` with invalid hex is
an error; anything else leaves the high surrogate alone. -/
inductive SurrLook where
  | pair (w : Nat) (rest4 : List Char)
  | lone
  | bad

def surrLook : List Char → SurrLook
  | b :: b2 :: g1 :: g2 :: g3 :: g4 :: rest4 =>
      if b = '\\' ∧ b2 = 'u' then
        match hex4 g1 g2 g3 g4 with
        | none => .bad
        | some w => if 0xdc00 ≤ w ∧ w ≤ 0xdfff then .pair w rest4 else .lone
      else .lone
  | _ => .lone

/-- Mode of one scanner activation: a value (`scan_once`), an object body
after `{` (`JSONObject`), the continuation of an object after one member, an
array body after `[` (`JSONArray`), its continuation, or string contents
after the opening quote (`scanstring`). -/
inductive PArg where
  | val (l : List Char)
  | objBody (l : List Char)
  | objRest (pairs : List (String × Json)) (l : List Char)
  | arrBody (l : List Char)
  | arrRest (elems : List Json) (l : List Char)
  | strRest (l : List Char)

inductive PRes where
  | jv (v : Json) (rest : List Char)
  | sv (s : List Char) (rest : List Char)

/-- Prepend a decoded character to a successful string-contents result. -/
def mapCons (ch : Char) : Option PRes → Option PRes
  | some (.sv s r) => some (.sv (ch :: s) r)
  | _ => none

/-- Convert a string-contents result into a string value result. -/
def mapStr : Option PRes → Option PRes
  | some (.sv s r) => some (.jv (Json.str (String.mk s)) r)
  | _ => none

/-- The fuel-independent tail of the value scanner: `null` / `true` / `false`
literal slices, then the number regex, then the `NaN` / `Infinity` /
`-Infinity` constants — in CPython `scan_once` order. -/
def scanLiteral (l : List Char) : Option PRes :=
  if listStartsWith l strNull then some (.jv Json.null (l.drop 4))
  else if listStartsWith l strTrue then some (.jv (Json.bool true) (l.drop 4))
  else if listStartsWith l strFalse then some (.jv (Json.bool false) (l.drop 5))
  else
    match parseNumber l with
    | some (v, r) => some (.jv v r)
    | none =>
        if listStartsWith l strNaN then some (.jv Json.nan (l.drop 3))
        else if listStartsWith l strInf then some (.jv (Json.inf false) (l.drop 8))
        else if listStartsWith l strNegInf then some (.jv (Json.inf true) (l.drop 9))
        else none

/-- One fuel step of the CPython `_json` scanner over all modes. -/
def parseStep : Nat → PArg → Option PRes
  | 0, _ => none
  | Nat.succ f, a =>
    match a with
    | .val l =>
      match l with
      | [] => none
      | c :: rest =>
          if c = '"' then mapStr (parseStep f (.strRest rest))
          else if c = '\x7b' then parseStep f (.objBody rest)
          else if c = '[' then parseStep f (.arrBody rest)
          else scanLiteral (c :: rest)
    | .objBody l =>
      match skipWs l with
      | [] => none
      | c :: rest =>
          if c = '\x7d' then some (.jv (Json.obj []) rest)
          else if c = '"' then
            match parseStep f (.strRest rest) with
            | some (.sv k r1) =>
                (match skipWs r1 with
                 | [] => none
                 | c1 :: r2 =>
                     if c1 = ':' then
                       match parseStep f (.val (skipWs r2)) with
                       | some (.jv v r3) => parseStep f (.objRest [(String.mk k, v)] r3)
                       | _ => none
                     else none)
            | _ => none
          else none
    | .objRest pairs l =>
      match skipWs l with
      | [] => none
      | c :: rest =>
          if c = '\x7d' then some (.jv (Json.obj (mkDict pairs)) rest)
          else if c = ',' then
            match skipWs rest with
            | [] => none
            | c0 :: r1 =>
                if c0 = '"' then
                  match parseStep f (.strRest r1) with
                  | some (.sv k r2) =>
                      (match skipWs r2 with
                       | [] => none
                       | c1 :: r3 =>
                           if c1 = ':' then
                             match parseStep f (.val (skipWs r3)) with
                             | some (.jv v r4) =>
                                 parseStep f (.objRest (pairs ++ [(String.mk k, v)]) r4)
                             | _ => none
                           else none)
                  | _ => none
                else none
          else none
    | .arrBody l =>
      match skipWs l with
      | [] => none
      | c :: rest =>
          if c = ']' then some (.jv (Json.arr []) rest)
          else
            match parseStep f (.val (c :: rest)) with
            | some (.jv v r) => parseStep f (.arrRest [v] r)
            | _ => none
    | .arrRest elems l =>
      match skipWs l with
      | [] => none
      | c :: rest =>
          if c = ']' then some (.jv (Json.arr elems) rest)
          else if c = ',' then
            match parseStep f (.val (skipWs rest)) with
            | some (.jv v r) => parseStep f (.arrRest (elems ++ [v]) r)
            | _ => none
          else none
    | .strRest l =>
      match l with
      | [] => none
      | c :: rest =>
          if c = '"' then some (.sv [] rest)
          else if c = '\\' then
            match rest with
            | [] => none
            | e :: rest2 =>
                if e = 'u' then
                  match rest2 with
                  | h1 :: h2 :: h3 :: h4 :: rest3 =>
                      (match hex4 h1 h2 h3 h4 with
                       | none => none
                       | some u =>
                           if 0xd800 ≤ u ∧ u ≤ 0xdbff then
                             match surrLook rest3 with
                             | .pair w rest4 =>
                                 mapCons
                                   (Char.ofNat
                                     (0x10000 + ((u - 0xd800) * 1024 + (w - 0xdc00))))
                                   (parseStep f (.strRest rest4))
                             | .lone => mapCons (Char.ofNat u) (parseStep f (.strRest rest3))
                             | .bad => none
                           else mapCons (Char.ofNat u) (parseStep f (.strRest rest3)))
                  | _ => none
                else
                  match escMap e with
                  | some ec => mapCons ec (parseStep f (.strRest rest2))
                  | none => none
          else if c.toNat < 32 then none
          else mapCons c (parseStep f (.strRest rest))

/-- Fuel that always suffices for an input of this length. -/
def scanFuel (l : List Char) : Nat := 2 * l.length + 2

/-- `raw_decode` at a position known to hold the start of a value: scan one
value and return it with the unconsumed suffix. -/
def rawDecode (l : List Char) : Option (Json × List Char) :=
  match parseStep (scanFuel l) (.val l) with
  | some (.jv v r) => some (v, r)
  | _ => none

/-- `text.find("{")` followed by slicing: the suffix of the text starting at
the first `{`, if any. -/
def findBrace : List Char → Option (List Char)
  | [] => none
  | c :: cs => if c = '\x7b' then some (c :: cs) else findBrace cs

/-- Embedding of `extract_json_object` (source lines 188-200): locate the
first `{`, `raw_decode` from there, and return the decoded object; `None` when
there is no `{` or the decode raises. -/
def extract_json_object (text : String) : Option Json :=
  match findBrace text.toList with
  | none => none
  | some rest =>
      match rawDecode rest with
      | some (v, _) => some v
      | none => none

/-! ## Transcript chunking (`summarize_long_transcript`, lines 588-595) -/

def LONG_SESSION_THRESHOLD : Nat := 60000
def CHUNK_SIZE : Nat := 50000

/-- The chunk loop `for i in range(0, len(transcript), CHUNK_SIZE):
chunks.append(transcript[i:i+CHUNK_SIZE])` over an arbitrary chunk size.
Python's `range` raises `ValueError` on step 0, so the zero case never runs
in the program (`CHUNK_SIZE = 50000`). -/
def chunkSplit : Nat → List Char → List (List Char)
  | _, [] => []
  | 0, _ :: _ => []
  | c + 1, x :: xs => ((x :: xs).take (c + 1)) :: chunkSplit (c + 1) ((x :: xs).drop (c + 1))
termination_by _ l => l.length
decreasing_by simp; omega

/-- The chunks the summarizer submits for an oversized transcript. -/
def transcriptChunks (transcript : List Char) : List (List Char) :=
  chunkSplit CHUNK_SIZE transcript

/-! ## Per-session metrics (`extract_session_metrics`, lines 303-489)

Messages carry the fields the analysed properties read.  A timestamp is
`Option (Option Int)`: `none` for an absent (or empty, hence falsy)
`timestamp` field, `some none` for one `datetime.fromisoformat` rejects,
`some (some t)` for one parsing to epoch second `t`.  The state is the
projection of the metric fold onto user/assistant message counts, session
start/end and duration, response-latency samples, and tool-error counts and
categories; fields no analysed property mentions (token totals, per-tool and
per-language tallies, line deltas, interruptions, hour histogram, first
prompt) are omitted from the record. -/

inductive UItem where
  | nonDict
  | dict (ty : String) (txt : String) (isErr : Bool) (errContent : Option String)

inductive MContent where
  | str (s : String)
  | items (l : List UItem)

structure Message where
  ty : String
  body : Option MContent
  ts : Option (Option Int)

structure MState where
  user_msg_count : Nat
  assistant_msg_count : Nat
  last_assistant_ts : Option (Option Int)
  start_time : Option Int
  end_time : Option Int
  response_times : List Int
  tool_errors : Nat
  tool_error_categories : List (String × Nat)

def initialState : MState := ⟨0, 0, none, none, none, [], 0, []⟩

/-- Truthiness of Python `s.strip()`: some non-whitespace character. -/
def pyNonBlank (s : String) : Bool := s.toList.any (fun c => !c.isWhitespace)

/-- A substring test (Python `needle in hay`). -/
def hasSubstr : List Char → List Char → Bool
  | [], needle => listStartsWith [] needle
  | c :: t, needle => listStartsWith (c :: t) needle || hasSubstr t needle

def strContains (hay needle : String) : Bool := hasSubstr hay.toList needle.toList

/-- Python `str.lower()` (the error patterns are ASCII). -/
def strLower (s : String) : String := String.mk (s.toList.map Char.toLower)

def apos : Char := '\x27'

/-- The literal pattern with an apostrophe from source line 407. -/
def dwPattern : String := "doesn" ++ String.singleton apos ++ "t want"

/-- Embedding of the tool-error category chain (source lines 404-418): the
lowercased message is matched against fixed substrings; the first matching
category wins, in the order written in the code. -/
def classify_tool_error (err : String) : String :=
  let e := strLower err
  if strContains e "exit code" then "Command Failed"
  else if strContains e "rejected" || strContains e dwPattern then "User Rejected"
  else if strContains e "string to replace not found" || strContains e "no changes" then
    "Edit Failed"
  else if strContains e "modified since read" then "File Changed"
  else if strContains e "exceeds maximum" || strContains e "too large" then "File Too Large"
  else if strContains e "file not found" || strContains e "does not exist" then
    "File Not Found"
  else "Other"

/-- The fixed priority table of tool-error categories, as the specification
states it: substring patterns per category, in order. -/
def errorCategoryTable : List (List String × String) :=
  [(["exit code"], "Command Failed"),
   (["rejected", dwPattern], "User Rejected"),
   (["string to replace not found", "no changes"], "Edit Failed"),
   (["modified since read"], "File Changed"),
   (["exceeds maximum", "too large"], "File Too Large"),
   (["file not found", "does not exist"], "File Not Found")]

/-- Declarative first-match categorisation over the priority table, with
"Other" exactly when no pattern matches. -/
def firstMatchCategory (err : String) : String :=
  match errorCategoryTable.find? (fun p => p.1.any (fun pat => strContains (strLower err) pat)) with
  | some p => p.2
  | none => "Other"

/-- `d[cat] = d.get(cat, 0) + 1` on an insertion-ordered counter. -/
def bumpCount : List (String × Nat) → String → List (String × Nat)
  | [], k => [(k, 1)]
  | (k', n) :: rest, k =>
      if k' = k then (k', n + 1) :: rest else (k', n) :: bumpCount rest k

def lookupCount (cats : List (String × Nat)) (k : String) : Nat :=
  match cats.find? (fun p => p.1 == k) with
  | some p => p.2
  | none => 0

/-- The user-content item scan (lines 393-419): stop at the first non-blank
text item (the `break`), returning it and the error contents of the
`is_error` tool results seen before it (`none` marks non-string content,
which is counted but not categorised). -/
def scanContent : List UItem → Option String × List (Option String)
  | [] => (none, [])
  | .nonDict :: rest => scanContent rest
  | .dict ty txt isErr ec :: rest =>
      if ty = "text" ∧ pyNonBlank txt = true then (some txt, [])
      else
        let p := scanContent rest
        if ty = "tool_result" ∧ isErr = true then (p.1, ec :: p.2) else p

def contentScan (content : MContent) : Option String × List (Option String) :=
  match content with
  | .str s => (if pyNonBlank s then some s else none, [])
  | .items l => scanContent l

/-- One `is_error` tool result: `tool_errors += 1`, and a category bump when
the content is a string. -/
def applyErr (st : MState) (ec : Option String) : MState :=
  { st with
    tool_errors := st.tool_errors + 1,
    tool_error_categories :=
      match ec with
      | some s => bumpCount st.tool_error_categories (classify_tool_error s)
      | none => st.tool_error_categories }

/-- The user-message branch (lines 385-443): error accounting, then — for a
text-bearing message — the user count, the start/end times (own `try`), and
the latency sample for a delta strictly inside the `2 < delta < 3600`
window (own `try`; a failed timestamp parse skips the block). -/
def userStep (st : MState) (content : MContent) (tv : Option (Option Int)) : MState :=
  let p := contentScan content
  let st1 := p.2.foldl applyErr st
  match p.1 with
  | none => st1
  | some _ =>
      let st2 := { st1 with user_msg_count := st1.user_msg_count + 1 }
      match tv with
      | none => st2
      | some pv =>
          let st3 :=
            match pv with
            | some tcur =>
                { st2 with
                  start_time := (match st2.start_time with | none => some tcur | s => s),
                  end_time := some tcur }
            | none => st2
          match st3.last_assistant_ts with
          | none => st3
          | some la =>
              match la, pv with
              | some ta, some tu =>
                  if 2 < tu - ta ∧ tu - ta < 3600 then
                    { st3 with response_times := st3.response_times ++ [tu - ta] }
                  else st3
              | _, _ => st3

/-- One message of the fold (assistant branch lines 335-341, user branch
lines 385-443). -/
def metricsStep (st : MState) (m : Message) : MState :=
  let st1 :=
    if m.ty = "assistant" then
      match m.body with
      | some _ =>
          { st with
            assistant_msg_count := st.assistant_msg_count + 1,
            last_assistant_ts :=
              match m.ts with
              | some pv => some pv
              | none => st.last_assistant_ts }
      | none => st
    else st
  if m.ty = "user" then
    match m.body with
    | some content => userStep st1 content m.ts
    | none => st1
  else st1

def extract_session_metrics (msgs : List Message) : MState :=
  msgs.foldl metricsStep initialState

/-- `duration_minutes` (lines 455-458): `max(1, int(seconds / 60))` when both
bounds exist, else 0; Python `int` truncates towards zero, as `Int.tdiv`. -/
def duration_minutes (st : MState) : Int :=
  match st.start_time, st.end_time with
  | some s, some e => max 1 (Int.tdiv (e - s) 60)
  | _, _ => 0

/-- The trivial-session filter of `main` (line 1538). -/
def trivial_session_filter (st : MState) : Bool :=
  decide (st.user_msg_count < 2) || decide (duration_minutes st < 1)

/-- Claim-side characterisation of one latency sample: a user text turn with
a parsed timestamp, following a prior assistant turn with a parsed
timestamp, with delta strictly inside the exclusive 2–3600 s window. -/
def latencySample (st : MState) (m : Message) : List Int :=
  if m.ty = "user" then
    match m.body with
    | some content =>
        if (contentScan content).1.isSome then
          match m.ts, st.last_assistant_ts with
          | some (some tu), some (some ta) =>
              if 2 < tu - ta ∧ tu - ta < 3600 then [tu - ta] else []
          | _, _ => []
        else []
    | none => []
  else []

/-! ## Facet extraction result handling (`extract_facets`, lines 643-657) -/

/-- `facet["session_id"] = session_id`, a `dict` assignment; the recovered
facet is always a dict because `raw_decode` starts at a `{`. -/
def jsonSetKey (j : Json) (k : String) (v : String) : Json :=
  match j with
  | .obj kvs => .obj (insertKV kvs k (.str v))
  | other => other

/-- The response handling of `extract_facets` (lines 643-657): a collaborator
exception is caught and yields absent; a recovered falsy (empty) object is
rejected (`if not facet`); otherwise the recovered object is tagged with the
session id and returned as-is — no validation of enumeration fields or count
maps happens anywhere on this path. -/
def facet_from_response (resp : Except String String) (session_id : String) : Option Json :=
  match resp with
  | .error _ => none
  | .ok text =>
      match extract_json_object text with
      | none => none
      | some j => if pyTruthy j then some (jsonSetKey j "session_id" session_id) else none

/-! ## The facet schema's closed sets (`FACET_SCHEMA`, lines 552-564) -/

def outcomeValues : List String :=
  ["fully_achieved", "mostly_achieved", "partially_achieved", "not_achieved",
   "unclear_from_transcript"]

def helpfulnessValues : List String :=
  ["unhelpful", "slightly_helpful", "moderately_helpful", "very_helpful", "essential"]

def sessionTypeValues : List String :=
  ["single_task", "multi_task", "iterative_refinement", "exploration", "quick_question"]

def primarySuccessValues : List String :=
  ["none", "fast_accurate_search", "correct_code_edits", "good_explanations",
   "proactive_help", "multi_file_changes", "good_debugging"]

def lookupKV (kvs : List (String × Json)) (k : String) : Option Json :=
  match kvs.find? (fun p => p.1 == k) with
  | some p => some p.2
  | none => none

def isEnumField (kvs : List (String × Json)) (k : String) (vals : List String) : Bool :=
  match lookupKV kvs k with
  | some (.str s) => vals.contains s
  | _ => false

def isCountMap (kvs : List (String × Json)) (k : String) : Bool :=
  match lookupKV kvs k with
  | some (.obj m) =>
      m.all (fun kv => match kv.2 with | .int n => decide (0 ≤ n) | _ => false)
  | _ => false

/-- The well-typedness the specification asserts of every produced facet:
each enumeration field in its closed set, each count map all non-negative
counts. -/
def wellTypedFacet : Json → Bool
  | .obj kvs =>
      isEnumField kvs "outcome" outcomeValues
        && isEnumField kvs "claude_helpfulness" helpfulnessValues
        && isEnumField kvs "session_type" sessionTypeValues
        && isEnumField kvs "primary_success" primarySuccessValues
        && isCountMap kvs "goal_categories"
        && isCountMap kvs "user_satisfaction_counts"
        && isCountMap kvs "friction_counts"
  | _ => false

/-! ## Facet cache and the per-session cache check (`load_cached_facet` lines
567-576, `main` lines 1543-1548) -/

/-- The cache is a map from session id to the parsed content of
`FACETS_DIR/<sid>.json` (`none`: entry missing or unreadable — both give
`None` in `load_cached_facet`). -/
def load_cached_facet (cache : String → Option Json) (session_id : String) : Option Json :=
  cache session_id

structure SessionRun where
  facet : Option Json
  collabCalls : Nat
  invokedExtraction : Bool

/-- One session's facet acquisition in `main` (lines 1543-1548 and
1587-1601): a truthy cached entry is used as-is with zero text-generation
calls; otherwise `extract_facets` runs and makes its facet-extraction call,
modelled by the `respond` outcome.  (Chunk-summarisation calls for oversized
transcripts would only add further calls on the extraction path.) -/
def processSession (cache : String → Option Json) (respond : Except String String)
    (session_id : String) : SessionRun :=
  match load_cached_facet cache session_id with
  | some c =>
      if pyTruthy c then ⟨some c, 0, false⟩
      else ⟨facet_from_response respond session_id, 1, true⟩
  | none => ⟨facet_from_response respond session_id, 1, true⟩

/-- The cache after a run: `main` calls `save_facet` exactly when extraction
produced a facet (line 1601); the cached path does not rewrite the entry. -/
def updatedCache (cache : String → Option Json) (session_id : String)
    (run : SessionRun) : String → Option Json :=
  match run.facet with
  | some f =>
      if run.invokedExtraction then
        fun k => if k = session_id then some f else cache k
      else cache
  | none => cache

/-! ## The `save_facet` write pattern (lines 579-585) -/

inductive FsStep where
  | openTruncCreate (mode : Nat)
  | writeData (data : String)

/-- `os.open(path, O_WRONLY | O_CREAT | O_TRUNC, 0o600)` followed by
`json.dump(facet, f, indent=2)`: an in-place create/truncate of the cache
entry itself, then the write of the serialized facet into it.  There is no
temporary file and no rename. -/
def save_facet_steps (serialized : String) : List FsStep :=
  [.openTruncCreate 0o600, .writeData serialized]

def applyFsStep (content : String) : FsStep → String
  | .openTruncCreate _ => ""
  | .writeData d => content ++ d

/-- Content of the cache entry after running the given step prefix on an
entry holding `content`. -/
def applyFsSteps (content : String) (steps : List FsStep) : String :=
  steps.foldl applyFsStep content

/-! ## The batch result loop (`main` lines 1593-1604) -/

structure BatchItem where
  sid : String
  resp : Except String String

/-- The result-collection loop over completed futures: each item's facet
(absent when its collaborator call or recovery failed, both caught inside
`extract_facets`) is recorded and, when present, saved with `save_facet`; an
exception from `save_facet` is uncaught here and propagates out of the
loop, aborting the run. -/
def processResults (save : Json → Except String Unit) :
    List (String × Option Json) → Except String (List (String × Option Json))
  | [] => .ok []
  | (sid, f) :: rest =>
      match f with
      | some facet =>
          match save facet with
          | .ok _ => (processResults save rest).map (fun l => (sid, some facet) :: l)
          | .error e => .error e
      | none => (processResults save rest).map (fun l => (sid, none) :: l)

/-- One batch: `_extract_one` for every item (`extract_facets` catches its
own failures, so items never raise here), then the result loop. -/
def runBatch (save : Json → Except String Unit) (items : List BatchItem) :
    Except String (List (String × Option Json)) :=
  processResults save (items.map (fun it => (it.sid, facet_from_response it.resp it.sid)))

/-! ## The warmup re-filter (`is_warmup_only`, lines 1609-1618) -/

/-- Python `v and v > 0` for a goal-category count. -/
def countActive (v : Json) : Bool :=
  pyTruthy v &&
    (match v with
     | .int n => decide (0 < n)
     | .float neg ip fp _ => !neg && !((ip ++ fp).all (fun c => c = '0'))
     | .bool b => b
     | .inf neg => !neg
     | _ => false)

def pyGetDict (f : Json) (k : String) : List (String × Json) :=
  match f with
  | .obj kvs =>
      match lookupKV kvs k with
      | some (.obj kvs2) => kvs2
      | _ => []
  | _ => []

/-- `is_warmup_only` (lines 1609-1615): false for a missing or falsy facet;
otherwise true exactly when the only active goal category is
`warmup_minimal`. -/
def is_warmup_only (facets_map : String → Option Json) (session_id : String) : Bool :=
  match facets_map session_id with
  | none => false
  | some f =>
      if pyTruthy f then
        let cats := pyGetDict f "goal_categories"
        let active := (cats.filter (fun kv => countActive kv.2)).map (fun kv => kv.1)
        decide (active.length = 1) && decide (active.head? = some "warmup_minimal")
      else false

structure NamedMetrics where
  session_id : String
  data : MState

/-- The warmup re-filtering pass over the collected metrics (line 1617). -/
def filterWarmups (facets_map : String → Option Json) (l : List NamedMetrics) :
    List NamedMetrics :=
  l.filter (fun m => !is_warmup_only facets_map m.session_id)

/-- An assistant message with a parsed timestamp. -/
def asstMsg (t : Int) : Message := ⟨"assistant", some (.items []), some (some t)⟩

/-- A user message with plain text content and a parsed timestamp. -/
def userTextMsg (t : Int) (s : String) : Message := ⟨"user", some (.str s), some (some t)⟩

/-- A user message whose content is one `is_error` tool result with string
content. -/
def toolErrMsg (s : String) : Message :=
  ⟨"user", some (.items [.dict "tool_result" "" true (some s)]), none⟩

/-- A collaborator response whose recovered object carries an `outcome` value
outside the schema's closed set. -/
def bananaFacetText : String := "\x7b\"outcome\": \"banana\"\x7d"

/-- The free text preceding the object in the specification's recovery
example. -/
def exampleC2Pre : String := "here is the result: "

/-- The object document of the specification's recovery example, with an
escaped closing brace inside its string value. -/
def exampleC2Obj : String := "\x7b\"a\": \"\x7d\"\x7d"

/-- The trailing junk of the specification's recovery example. -/
def exampleC2Post : String := " trailing junk"

/-- The full response text of the specification's recovery example. -/
def exampleC2Text : String := exampleC2Pre ++ exampleC2Obj ++ exampleC2Post

/-- A populated, truthy cache entry. -/
def cachedFacetEx : Json := Json.obj [("outcome", Json.str "fully_achieved")]

/-- The unconsumed suffix of a scanner result. -/
def resRest : PRes → List Char
  | .jv _ r => r
  | .sv _ r => r

/-- Append a suffix to the input of a scanner mode. -/
def argAppend (t : List Char) : PArg → PArg
  | .val l => .val (l ++ t)
  | .objBody l => .objBody (l ++ t)
  | .objRest ps l => .objRest ps (l ++ t)
  | .arrBody l => .arrBody (l ++ t)
  | .arrRest es l => .arrRest es (l ++ t)
  | .strRest l => .strRest (l ++ t)

/-- Append a suffix to the unconsumed part of a scanner result. -/
def resAppend (t : List Char) : PRes → PRes
  | .jv v r => .jv v (r ++ t)
  | .sv s r => .sv s (r ++ t)

/-- A character that cannot extend a maximal number-regex match to its left:
anything but `.`, `e`, `E`. -/
def numSafe (c : Char) : Prop := ¬c = '.' ∧ ¬c = 'e' ∧ ¬c = 'E'

/-- Condition under which appending text beyond the scanned region cannot
change a scan: for a value, either the unconsumed rest starts with a
number-safe character, or the value starts with `{` (objects always end at
their closing brace); other modes end at closing delimiters and need
nothing. -/
def okAppend : PArg → PRes → Prop
  | .val l, r => (∃ c rr, resRest r = c :: rr ∧ numSafe c) ∨ (∃ cs, l = '\x7b' :: cs)
  | _, _ => True

/-- A successful `mapCons` comes from a successful string-contents scan. -/
theorem mapCons_eq_some {ch : Char} {o : Option PRes} {r : PRes} (h : mapCons ch o = some r) :
    ∃ s rr, o = some (.sv s rr) ∧ r = .sv (ch :: s) rr := by
  cases o with
  | none => simp [mapCons] at h
  | some p =>
    cases p with
    | jv v rest => simp [mapCons] at h
    | sv s rest =>
      refine ⟨s, rest, rfl, ?_⟩
      simpa [mapCons] using h.symm

/-- A successful `mapStr` comes from a successful string-contents scan. -/
theorem mapStr_eq_some {o : Option PRes} {r : PRes} (h : mapStr o = some r) :
    ∃ s rr, o = some (.sv s rr) ∧ r = .jv (Json.str (String.mk s)) rr := by
  cases o with
  | none => simp [mapStr] at h
  | some p =>
    cases p with
    | jv v rest => simp [mapStr] at h
    | sv s rest =>
      refine ⟨s, rest, rfl, ?_⟩
      simpa [mapStr] using h.symm

/-- The scanner is monotone in fuel: a scan that succeeds with some fuel
succeeds identically with any larger fuel. -/
theorem parseStep_mono : ∀ f f' a r, f ≤ f' → parseStep f a = some r → parseStep f' a = some r := by
  intro f
  induction f with
  | zero => intro f' a r _ h; simp [parseStep] at h
  | succ f ih =>
    intro f' a r hle h
    obtain ⟨f', rfl⟩ : ∃ g, f' = g + 1 := ⟨f' - 1, by omega⟩
    have hle' : f ≤ f' := by omega
    cases a with
    | val l =>
      cases l with
      | nil => simp [parseStep] at h
      | cons c rest =>
        simp only [parseStep] at h ⊢
        by_cases hq : c = '"'
        · simp only [if_pos hq] at h ⊢
          obtain ⟨s, rr, ho, rfl⟩ := mapStr_eq_some h
          rw [ih _ _ _ hle' ho]; rfl
        · simp only [if_neg hq] at h ⊢
          by_cases hb : c = '\x7b'
          · simp only [if_pos hb] at h ⊢; exact ih _ _ _ hle' h
          · simp only [if_neg hb] at h ⊢
            by_cases ha : c = '['
            · simp only [if_pos ha] at h ⊢; exact ih _ _ _ hle' h
            · simp only [if_neg ha] at h ⊢; exact h
    | objBody l =>
      cases hsw : skipWs l with
      | nil => simp [parseStep, hsw] at h
      | cons c rest =>
        by_cases hc : c = '\x7d'
        · simpa [parseStep, hsw, hc] using h
        · by_cases hq : c = '"'
          · cases hks : parseStep f (.strRest rest) with
            | none => simp [parseStep, hsw, hc, hq, hks] at h
            | some p =>
              cases p with
              | jv v r1 => simp [parseStep, hsw, hc, hq, hks] at h
              | sv k r1 =>
                have hks' := ih _ _ _ hle' hks
                cases hsw1 : skipWs r1 with
                | nil => simp [parseStep, hsw, hc, hq, hks, hsw1] at h
                | cons c1 r2 =>
                  by_cases hcol : c1 = ':'
                  · cases hv : parseStep f (.val (skipWs r2)) with
                    | none => simp [parseStep, hsw, hc, hq, hks, hsw1, hcol, hv] at h
                    | some p2 =>
                      cases p2 with
                      | sv s r3 => simp [parseStep, hsw, hc, hq, hks, hsw1, hcol, hv] at h
                      | jv v r3 =>
                        have hv' := ih _ _ _ hle' hv
                        simp only [parseStep, hsw, hc, hq, hks, hsw1, hcol, hv,
                          if_neg, if_pos, reduceIte] at h
                        simp only [parseStep, hsw, hc, hq, hks', hsw1, hcol, hv',
                          if_neg, if_pos, reduceIte]
                        exact ih _ _ _ hle' h
                  · simp [parseStep, hsw, hc, hq, hks, hsw1, hcol] at h
          · simp [parseStep, hsw, hc, hq] at h
    | objRest pairs l =>
      cases hsw : skipWs l with
      | nil => simp [parseStep, hsw] at h
      | cons c rest =>
        by_cases hc : c = '\x7d'
        · simpa [parseStep, hsw, hc] using h
        · by_cases hcm : c = ','
          · cases hsw0 : skipWs rest with
            | nil => simp [parseStep, hsw, hc, hcm, hsw0] at h
            | cons c0 r1 =>
              by_cases hq : c0 = '"'
              · cases hks : parseStep f (.strRest r1) with
                | none => simp [parseStep, hsw, hc, hcm, hsw0, hq, hks] at h
                | some p =>
                  cases p with
                  | jv v r2 => simp [parseStep, hsw, hc, hcm, hsw0, hq, hks] at h
                  | sv k r2 =>
                    have hks' := ih _ _ _ hle' hks
                    cases hsw1 : skipWs r2 with
                    | nil => simp [parseStep, hsw, hc, hcm, hsw0, hq, hks, hsw1] at h
                    | cons c1 r3 =>
                      by_cases hcol : c1 = ':'
                      · cases hv : parseStep f (.val (skipWs r3)) with
                        | none =>
                          simp [parseStep, hsw, hc, hcm, hsw0, hq, hks, hsw1, hcol, hv] at h
                        | some p2 =>
                          cases p2 with
                          | sv s r4 =>
                            simp [parseStep, hsw, hc, hcm, hsw0, hq, hks, hsw1, hcol, hv] at h
                          | jv v r4 =>
                            have hv' := ih _ _ _ hle' hv
                            simp only [parseStep, hsw, hc, hcm, hsw0, hq, hks, hsw1, hcol,
                              hv, if_neg, if_pos, reduceIte] at h
                            simp only [parseStep, hsw, hc, hcm, hsw0, hq, hks', hsw1, hcol,
                              hv', if_neg, if_pos, reduceIte]
                            exact ih _ _ _ hle' h
                      · simp [parseStep, hsw, hc, hcm, hsw0, hq, hks, hsw1, hcol] at h
              · simp [parseStep, hsw, hc, hcm, hsw0, hq] at h
          · simp [parseStep, hsw, hc, hcm] at h
    | arrBody l =>
      cases hsw : skipWs l with
      | nil => simp [parseStep, hsw] at h
      | cons c rest =>
        by_cases hc : c = ']'
        · simpa [parseStep, hsw, hc] using h
        · cases hv : parseStep f (.val (c :: rest)) with
          | none => simp [parseStep, hsw, hc, hv] at h
          | some p =>
            cases p with
            | sv s r => simp [parseStep, hsw, hc, hv] at h
            | jv v r =>
              have hv' := ih _ _ _ hle' hv
              simp only [parseStep, hsw, hc, hv, if_neg, if_pos, reduceIte] at h
              simp only [parseStep, hsw, hc, hv', if_neg, if_pos, reduceIte]
              exact ih _ _ _ hle' h
    | arrRest elems l =>
      cases hsw : skipWs l with
      | nil => simp [parseStep, hsw] at h
      | cons c rest =>
        by_cases hc : c = ']'
        · simpa [parseStep, hsw, hc] using h
        · by_cases hcm : c = ','
          · cases hv : parseStep f (.val (skipWs rest)) with
            | none => simp [parseStep, hsw, hc, hcm, hv] at h
            | some p =>
              cases p with
              | sv s r => simp [parseStep, hsw, hc, hcm, hv] at h
              | jv v r =>
                have hv' := ih _ _ _ hle' hv
                simp only [parseStep, hsw, hc, hcm, hv, if_neg, if_pos, reduceIte] at h
                simp only [parseStep, hsw, hc, hcm, hv', if_neg, if_pos, reduceIte]
                exact ih _ _ _ hle' h
          · simp [parseStep, hsw, hc, hcm] at h
    | strRest l =>
      cases l with
      | nil => simp [parseStep] at h
      | cons c rest =>
        simp only [parseStep] at h ⊢
        by_cases hq : c = '"'
        · simp only [if_pos hq] at h ⊢; exact h
        · simp only [if_neg hq] at h ⊢
          by_cases hbs : c = '\\'
          · simp only [if_pos hbs] at h ⊢
            cases rest with
            | nil => exact absurd h (by simp)
            | cons e rest2 =>
              by_cases hu : e = 'u'
              · simp only [if_pos hu] at h ⊢
                rcases rest2 with _ | ⟨h1, _ | ⟨h2, _ | ⟨h3, _ | ⟨h4, rest3⟩⟩⟩⟩
                · exact absurd h (by simp)
                · exact absurd h (by simp)
                · exact absurd h (by simp)
                · exact absurd h (by simp)
                · simp only at h ⊢
                  cases hhex : hex4 h1 h2 h3 h4 with
                  | none => rw [hhex] at h; exact absurd h (by simp)
                  | some u =>
                    rw [hhex] at h
                    by_cases hsur : 0xd800 ≤ u ∧ u ≤ 0xdbff
                    · simp only [if_pos hsur] at h ⊢
                      cases hsl : surrLook rest3 with
                      | pair w rest4 =>
                        rw [hsl] at h
                        simp only at h ⊢
                        obtain ⟨s, rr, ho, rfl⟩ := mapCons_eq_some h
                        rw [ih _ _ _ hle' ho]; rfl
                      | lone =>
                        rw [hsl] at h
                        simp only at h ⊢
                        obtain ⟨s, rr, ho, rfl⟩ := mapCons_eq_some h
                        rw [ih _ _ _ hle' ho]; rfl
                      | bad => rw [hsl] at h; exact absurd h (by simp)
                    · simp only [if_neg hsur] at h ⊢
                      obtain ⟨s, rr, ho, rfl⟩ := mapCons_eq_some h
                      rw [ih _ _ _ hle' ho]; rfl
              · simp only [if_neg hu] at h ⊢
                cases hesc : escMap e with
                | none => rw [hesc] at h; exact absurd h (by simp)
                | some ec =>
                  rw [hesc] at h
                  simp only at h ⊢
                  obtain ⟨s, rr, ho, rfl⟩ := mapCons_eq_some h
                  rw [ih _ _ _ hle' ho]; rfl
          · simp only [if_neg hbs] at h ⊢
            by_cases hctl : c.toNat < 32
            · simp only [if_pos hctl] at h; exact absurd h (by simp)
            · simp only [if_neg hctl] at h ⊢
              obtain ⟨s, rr, ho, rfl⟩ := mapCons_eq_some h
              rw [ih _ _ _ hle' ho]; rfl


/-! ### Append lemmas: scanning is insensitive to text beyond what it consumes -/

theorem skipWs_append_cons {l : List Char} {c : Char} {rr : List Char}
    (h : skipWs l = c :: rr) (t : List Char) : skipWs (l ++ t) = c :: (rr ++ t) := by
  induction l with
  | nil => simp [skipWs] at h
  | cons d ds ih =>
    simp only [skipWs] at h
    by_cases hd : jsonWs d
    · rw [if_pos hd] at h
      simpa [skipWs, hd] using ih h
    · rw [if_neg hd] at h
      obtain ⟨rfl, rfl⟩ : d = c ∧ ds = rr := by
        exact ⟨(List.cons.injEq ..).mp h |>.1, (List.cons.injEq ..).mp h |>.2⟩
      simp [skipWs, hd]

theorem head_of_skipWs {l : List Char} {c₀ : Char} {rr₀ : List Char}
    (h : skipWs l = c₀ :: rr₀) : ∃ c rr, l = c :: rr ∧ (jsonWs c = true ∨ c = c₀) := by
  induction l with
  | nil => simp [skipWs] at h
  | cons d ds ih =>
    by_cases hd : jsonWs d
    · exact ⟨d, ds, rfl, Or.inl hd⟩
    · refine ⟨d, ds, rfl, Or.inr ?_⟩
      simp only [skipWs, if_neg hd] at h
      exact ((List.cons.injEq ..).mp h).1

theorem jsonWs_numSafe {c : Char} (h : jsonWs c = true) : numSafe c := by
  simp only [jsonWs, Bool.or_eq_true, decide_eq_true_eq] at h
  rcases h with ((h | h) | h) | h <;> subst h <;> exact ⟨by decide, by decide, by decide⟩

theorem listStartsWith_append {l p : List Char} (h : listStartsWith l p = true)
    (t : List Char) : listStartsWith (l ++ t) p = true := by
  induction p generalizing l with
  | nil => simp [listStartsWith]
  | cons pc pr ih =>
    cases l with
    | nil => simp [listStartsWith] at h
    | cons c r =>
      simp only [listStartsWith, Bool.and_eq_true] at h ⊢
      exact ⟨h.1, ih h.2⟩

theorem startsWith_cons {l : List Char} {p0 : Char} {pr : List Char}
    (h : listStartsWith l (p0 :: pr) = true) :
    ∃ rr, l = p0 :: rr ∧ listStartsWith rr pr = true := by
  cases l with
  | nil => simp [listStartsWith] at h
  | cons c r =>
    simp only [listStartsWith, Bool.and_eq_true, decide_eq_true_eq] at h
    exact ⟨r, by rw [h.1], h.2⟩

theorem startsWith_length {l p : List Char} (h : listStartsWith l p = true) :
    p.length ≤ l.length := by
  induction p generalizing l with
  | nil => simp
  | cons pc pr ih =>
    obtain ⟨rr, rfl, h2⟩ := startsWith_cons h
    simpa using ih h2

theorem startsWith_append_false {c p0 : Char} {rest pr t : List Char} (hne : ¬c = p0) :
    listStartsWith ((c :: rest) ++ t) (p0 :: pr) = false := by
  simp [listStartsWith, hne]

theorem takeDigits_append_cons {l : List Char} {ds : List Char} {c : Char} {rr : List Char}
    (h : takeDigits l = (ds, c :: rr)) (t : List Char) :
    takeDigits (l ++ t) = (ds, c :: (rr ++ t)) := by
  induction l generalizing ds with
  | nil => simp [takeDigits] at h
  | cons d l' ih =>
    simp only [takeDigits] at h ⊢
    by_cases hd : d.isDigit
    · rw [if_pos hd] at h
      obtain ⟨h1, h2⟩ := (Prod.mk.injEq ..).mp h
      have ih2 := @ih (takeDigits l').1 (by rw [← h2])
      subst h1
      simp [List.cons_append, takeDigits, hd, ih2]
    · rw [if_neg hd] at h
      obtain ⟨h1, h2⟩ := (Prod.mk.injEq ..).mp h
      obtain ⟨rfl, rfl⟩ := (List.cons.injEq ..).mp h2
      simp [takeDigits, hd, ← h1]

theorem numAfterInt_nil (neg : Bool) (ip : List Char) :
    numAfterInt neg ip [] =
      (Json.int ((if neg then (-1 : Int) else 1) * Int.ofNat (digitsToNat ip)), []) := rfl

theorem expDigits_append {e : Char} {r : List Char} (he : e = 'e' ∨ e = 'E') {sign : Int}
    {r1 : List Char} {b : Bool} {x : Int} {c : Char} {rr : List Char}
    (h : expDigits (e :: r) sign r1 = (b, x, c :: rr)) (hs : numSafe c) (t : List Char) :
    expDigits (e :: (r ++ t)) sign (r1 ++ t) = (b, x, c :: (rr ++ t)) := by
  obtain ⟨hs1, hs2, hs3⟩ := hs
  cases r1 with
  | nil =>
    simp only [expDigits, Prod.mk.injEq] at h
    obtain ⟨-, -, h3⟩ := h
    obtain ⟨he1, -⟩ := (List.cons.injEq ..).mp h3
    rcases he with he | he
    · subst he; exact absurd he1.symm hs2
    · subst he; exact absurd he1.symm hs3
  | cons d rr2 =>
    by_cases hd : d.isDigit
    · simp only [expDigits, if_pos hd, Prod.mk.injEq] at h
      obtain ⟨h1, h2, h3⟩ := h
      have hta := @takeDigits_append_cons rr2 (takeDigits rr2).1 _ _
        (by rw [← h3]) t
      simp only [List.cons_append, expDigits, if_pos hd, hta, Prod.mk.injEq]
      exact ⟨h1, h2, trivial⟩
    · simp only [expDigits, if_neg hd, Prod.mk.injEq] at h
      obtain ⟨-, -, h3⟩ := h
      obtain ⟨he1, -⟩ := (List.cons.injEq ..).mp h3
      rcases he with he | he
      · subst he; exact absurd he1.symm hs2
      · subst he; exact absurd he1.symm hs3

theorem expSign_append {e : Char} {r : List Char} (he : e = 'e' ∨ e = 'E')
    {b : Bool} {x : Int} {c : Char} {rr : List Char}
    (h : expSign (e :: r) r = (b, x, c :: rr)) (hs : numSafe c) (t : List Char) :
    expSign (e :: (r ++ t)) (r ++ t) = (b, x, c :: (rr ++ t)) := by
  cases r with
  | nil =>
    simp only [expSign, Prod.mk.injEq] at h
    obtain ⟨-, -, h3⟩ := h
    obtain ⟨he1, -⟩ := (List.cons.injEq ..).mp h3
    obtain ⟨hs1, hs2, hs3⟩ := hs
    rcases he with he | he
    · subst he; exact absurd he1.symm hs2
    · subst he; exact absurd he1.symm hs3
  | cons s rrr =>
    by_cases hp : s = '+'
    · simp only [expSign, List.cons_append, if_pos hp] at h ⊢
      exact expDigits_append he h hs t
    · by_cases hm : s = '-'
      · simp only [expSign, List.cons_append, if_neg hp, if_pos hm] at h ⊢
        exact expDigits_append he h hs t
      · simp only [expSign, List.cons_append, if_neg hp, if_neg hm] at h ⊢
        have := @expDigits_append _ _ he _ (s :: rrr) _ _ _ _ h hs t
        simpa using this

theorem expPart_append {m : List Char} {b : Bool} {x : Int} {c : Char} {rr : List Char}
    (h : expPart m = (b, x, c :: rr)) (hs : numSafe c) (t : List Char) :
    expPart (m ++ t) = (b, x, c :: (rr ++ t)) := by
  cases m with
  | nil => simp only [expPart, Prod.mk.injEq] at h; simp at h
  | cons e r =>
    by_cases he : e = 'e' ∨ e = 'E'
    · simp only [expPart, List.cons_append, if_pos he] at h ⊢
      exact expSign_append he h hs t
    · simp only [expPart, List.cons_append, if_neg he, Prod.mk.injEq] at h ⊢
      obtain ⟨h1, h2, h3⟩ := h
      obtain ⟨rfl, rfl⟩ := (List.cons.injEq ..).mp h3
      exact ⟨h1, h2, rfl⟩

theorem numAfterInt_append {neg : Bool} {ip rest : List Char} {v : Json} {c : Char}
    {rr : List Char} (h : numAfterInt neg ip rest = (v, c :: rr)) (hs : numSafe c)
    (t : List Char) : numAfterInt neg ip (rest ++ t) = (v, c :: (rr ++ t)) := by
  obtain ⟨hs1, hs2, hs3⟩ := hs
  by_cases hcond : (fracPart rest).1 = [] ∧ (expPart (fracPart rest).2).1 = false
  · -- integer branch: the result rest is `rest` itself, whose head is number-safe
    simp only [numAfterInt, if_pos hcond, Prod.mk.injEq] at h
    obtain ⟨h1, h2⟩ := h
    subst h2
    have hfr : fracPart (c :: (rr ++ t)) = ([], c :: (rr ++ t)) := by
      simp [fracPart, hs1]
    have hex : (expPart (c :: (rr ++ t))).1 = false := by
      have : ¬(c = 'e' ∨ c = 'E') := by simp [hs2, hs3]
      simp [expPart, this]
    have hcnd : (fracPart (c :: (rr ++ t))).1 = [] ∧
        (expPart (fracPart (c :: (rr ++ t))).2).1 = false := by
      rw [hfr]; exact ⟨rfl, hex⟩
    simp only [List.cons_append, numAfterInt]
    rw [if_pos hcnd, h1]
  · -- float branch
    simp only [numAfterInt, if_neg hcond, Prod.mk.injEq] at h
    obtain ⟨h1, h2⟩ := h
    -- the final rest is the exponent part's rest
    have hfr : fracPart (rest ++ t) = ((fracPart rest).1, (fracPart rest).2 ++ t) := by
      cases rest with
      | nil =>
        exfalso
        exact hcond ⟨by simp [fracPart], by simp [fracPart, expPart]⟩
      | cons c₁ r1 =>
        by_cases hdot : c₁ = '.'
        · cases r1 with
          | nil =>
            exfalso
            refine hcond ⟨by simp [fracPart, hdot], ?_⟩
            subst hdot
            simp [fracPart, expPart]
          | cons d r =>
            by_cases hd : d.isDigit
            · simp only [fracPart, if_pos hdot, if_pos hd] at h2 ⊢
              have hne : (takeDigits r).2 ≠ [] := by
                intro hnil
                rw [hnil] at h2
                simp [expPart] at h2
              obtain ⟨q, qs, hq⟩ : ∃ q qs, (takeDigits r).2 = q :: qs := by
                cases hqq : (takeDigits r).2 with
                | nil => exact absurd hqq hne
                | cons q qs => exact ⟨q, qs, rfl⟩
              have hta := @takeDigits_append_cons r (takeDigits r).1 _ _
                (by rw [← hq]) t
              simp only [List.cons_append, fracPart, if_pos hdot, if_pos hd, hta, hq]
            · simp [fracPart, if_pos hdot, if_neg hd, List.cons_append]
        · simp [fracPart, if_neg hdot, List.cons_append]
    have hexp := expPart_append (m := (fracPart rest).2) (by rw [← h2]) ⟨hs1, hs2, hs3⟩ t
    simp only [numAfterInt, hfr, hexp]
    rw [if_neg (by simpa using hcond)]
    simp [h1]

theorem parseNumCore_append {neg : Bool} {l1 : List Char} {v : Json} {c : Char}
    {rr : List Char} (h : parseNumCore neg l1 = some (v, c :: rr)) (hs : numSafe c)
    (t : List Char) : parseNumCore neg (l1 ++ t) = some (v, c :: (rr ++ t)) := by
  cases l1 with
  | nil => simp [parseNumCore] at h
  | cons c₁ r2 =>
    by_cases h0 : c₁ = '0'
    · simp only [parseNumCore, if_pos h0, Option.some.injEq] at h
      simp only [List.cons_append, parseNumCore, if_pos h0, Option.some.injEq]
      exact numAfterInt_append h hs t
    · by_cases hd : c₁.isDigit
      · simp only [parseNumCore, if_neg h0, if_pos hd, Option.some.injEq] at h
        have hne : (takeDigits r2).2 ≠ [] := by
          intro hnil
          rw [hnil] at h
          rw [numAfterInt_nil] at h
          exact absurd ((Prod.mk.injEq ..).mp h).2 (by simp)
        obtain ⟨q, qs, hq⟩ : ∃ q qs, (takeDigits r2).2 = q :: qs := by
          cases hqq : (takeDigits r2).2 with
          | nil => exact absurd hqq hne
          | cons q qs => exact ⟨q, qs, rfl⟩
        have hta := @takeDigits_append_cons r2 (takeDigits r2).1 _ _
          (by rw [← hq]) t
        simp only [List.cons_append, parseNumCore, if_neg h0, if_pos hd, hta,
          Option.some.injEq]
        rw [hq] at h
        have := numAfterInt_append h hs t
        simpa using this
      · simp [parseNumCore, if_neg h0, if_neg hd] at h

theorem parseNumber_append {l : List Char} {v : Json} {c : Char} {rr : List Char}
    (h : parseNumber l = some (v, c :: rr)) (hs : numSafe c) (t : List Char) :
    parseNumber (l ++ t) = some (v, c :: (rr ++ t)) := by
  cases l with
  | nil => simp [parseNumber] at h
  | cons c₀ r =>
    by_cases hm : c₀ = '-'
    · simp only [parseNumber, if_pos hm] at h
      simp only [List.cons_append, parseNumber, if_pos hm]
      exact parseNumCore_append h hs t
    · simp only [parseNumber, if_neg hm] at h
      simp only [List.cons_append, parseNumber, if_neg hm]
      have := parseNumCore_append h hs t
      simpa using this

theorem parseNumber_head {l : List Char} {pr : Json × List Char}
    (h : parseNumber l = some pr) :
    ∃ c rest, l = c :: rest ∧ (c.isDigit = true ∨ c = '-') := by
  cases l with
  | nil => simp [parseNumber] at h
  | cons c rest =>
    by_cases hm : c = '-'
    · exact ⟨c, rest, rfl, Or.inr hm⟩
    · refine ⟨c, rest, rfl, Or.inl ?_⟩
      simp only [parseNumber, if_neg hm] at h
      by_cases h0 : c = '0'
      · subst h0; decide
      · by_cases hd : c.isDigit
        · exact hd
        · simp [parseNumCore, if_neg h0, if_neg hd] at h

theorem parseNumber_none_of_head {c : Char} {rest : List Char} (hdig : ¬c.isDigit = true)
    (hm : ¬c = '-') : parseNumber (c :: rest) = none := by
  have h0 : ¬c = '0' := fun hh => hdig (by subst hh; decide)
  simp [parseNumber, parseNumCore, hm, h0, hdig]

theorem parseNumber_dash_nil : parseNumber ['-'] = none := rfl

theorem parseNumber_dash_nondigit {d : Char} {rest : List Char} (hd : ¬d.isDigit = true) :
    parseNumber ('-' :: d :: rest) = none := by
  have h0 : ¬d = '0' := fun hh => hd (by subst hh; decide)
  simp [parseNumber, parseNumCore, h0, hd]

/-- A successful literal/number scan always produces a JSON value result. -/
theorem scanLiteral_jv {l : List Char} {r : PRes} (h : scanLiteral l = some r) :
    ∃ v rest, r = .jv v rest := by
  simp only [scanLiteral] at h
  split at h
  · exact ⟨_, _, (Option.some.inj h).symm⟩
  · split at h
    · exact ⟨_, _, (Option.some.inj h).symm⟩
    · split at h
      · exact ⟨_, _, (Option.some.inj h).symm⟩
      · split at h
        · exact ⟨_, _, (Option.some.inj h).symm⟩
        · split at h
          · exact ⟨_, _, (Option.some.inj h).symm⟩
          · split at h
            · exact ⟨_, _, (Option.some.inj h).symm⟩
            · split at h
              · exact ⟨_, _, (Option.some.inj h).symm⟩
              · simp at h

theorem scanLiteral_append {l : List Char} {v : Json} {c : Char} {rr : List Char}
    (h : scanLiteral l = some (.jv v (c :: rr))) (hs : numSafe c) (t : List Char) :
    scanLiteral (l ++ t) = some (.jv v (c :: (rr ++ t))) := by
  have eNull : strNull = 'n' :: ['u', 'l', 'l'] := rfl
  have eTrue : strTrue = 't' :: ['r', 'u', 'e'] := rfl
  have eFalse : strFalse = 'f' :: ['a', 'l', 's', 'e'] := rfl
  have eNaN : strNaN = 'N' :: ['a', 'N'] := rfl
  have eInf : strInf = 'I' :: ['n', 'f', 'i', 'n', 'i', 't', 'y'] := rfl
  have eNegInf : strNegInf = '-' :: ['I', 'n', 'f', 'i', 'n', 'i', 't', 'y'] := rfl
  by_cases hN : listStartsWith l strNull = true
  · simp only [scanLiteral, if_pos hN, Option.some.injEq] at h
    obtain ⟨rfl, hdrop⟩ := (PRes.jv.injEq ..).mp h
    have hlen : (4 : Nat) ≤ l.length := startsWith_length hN
    simp only [scanLiteral, if_pos (listStartsWith_append hN t), Option.some.injEq]
    rw [List.drop_append_of_le_length hlen, hdrop]
    simp
  · by_cases hT : listStartsWith l strTrue = true
    · obtain ⟨rest₀, rfl, -⟩ := startsWith_cons (eTrue ▸ hT)
      have rejN : listStartsWith (('t' :: rest₀) ++ t) strNull = false := by
        rw [eNull]; exact startsWith_append_false (by decide)
      simp only [scanLiteral, if_neg hN, if_pos hT, Option.some.injEq] at h
      obtain ⟨rfl, hdrop⟩ := (PRes.jv.injEq ..).mp h
      have hlen : (4 : Nat) ≤ ('t' :: rest₀).length := startsWith_length hT
      simp only [scanLiteral, rejN, Bool.false_eq_true, if_false,
        if_pos (listStartsWith_append hT t), Option.some.injEq]
      rw [List.drop_append_of_le_length hlen, hdrop]
      simp
    · by_cases hF : listStartsWith l strFalse = true
      · obtain ⟨rest₀, rfl, -⟩ := startsWith_cons (eFalse ▸ hF)
        have rejN : listStartsWith (('f' :: rest₀) ++ t) strNull = false := by
          rw [eNull]; exact startsWith_append_false (by decide)
        have rejT : listStartsWith (('f' :: rest₀) ++ t) strTrue = false := by
          rw [eTrue]; exact startsWith_append_false (by decide)
        simp only [scanLiteral, if_neg hN, if_neg hT, if_pos hF,
          Option.some.injEq] at h
        obtain ⟨rfl, hdrop⟩ := (PRes.jv.injEq ..).mp h
        have hlen : (5 : Nat) ≤ ('f' :: rest₀).length := startsWith_length hF
        simp only [scanLiteral, rejN, rejT, Bool.false_eq_true, if_false,
          if_pos (listStartsWith_append hF t), Option.some.injEq]
        rw [List.drop_append_of_le_length hlen, hdrop]
        simp
      · cases hpn : parseNumber l with
        | some pr =>
          obtain ⟨vn, rn⟩ := pr
          simp only [scanLiteral, if_neg hN, if_neg hT, if_neg hF, hpn,
            Option.some.injEq] at h
          obtain ⟨rfl, hrn⟩ := (PRes.jv.injEq ..).mp h
          subst hrn
          obtain ⟨c₀, rest₀, rfl, hcd⟩ := parseNumber_head hpn
          have hne : ∀ p : Char, ¬p.isDigit = true → p ≠ '-' → ¬(c₀ = p) := by
            intro p hp hpm hc
            subst hc
            rcases hcd with hcd | hcd
            · exact hp hcd
            · exact hpm hcd
          have rejN : listStartsWith ((c₀ :: rest₀) ++ t) strNull = false := by
            rw [eNull]; exact startsWith_append_false (hne 'n' (by decide) (by decide))
          have rejT : listStartsWith ((c₀ :: rest₀) ++ t) strTrue = false := by
            rw [eTrue]; exact startsWith_append_false (hne 't' (by decide) (by decide))
          have rejF : listStartsWith ((c₀ :: rest₀) ++ t) strFalse = false := by
            rw [eFalse]; exact startsWith_append_false (hne 'f' (by decide) (by decide))
          have hnum := parseNumber_append hpn hs t
          simp only [scanLiteral, rejN, rejT, rejF, Bool.false_eq_true, if_false, hnum]
        | none =>
          by_cases hNa : listStartsWith l strNaN = true
          · obtain ⟨rest₀, rfl, -⟩ := startsWith_cons (eNaN ▸ hNa)
            have rejN : listStartsWith (('N' :: rest₀) ++ t) strNull = false := by
              rw [eNull]; exact startsWith_append_false (by decide)
            have rejT : listStartsWith (('N' :: rest₀) ++ t) strTrue = false := by
              rw [eTrue]; exact startsWith_append_false (by decide)
            have rejF : listStartsWith (('N' :: rest₀) ++ t) strFalse = false := by
              rw [eFalse]; exact startsWith_append_false (by decide)
            have hnum : parseNumber (('N' :: rest₀) ++ t) = none := by
              rw [List.cons_append]
              exact parseNumber_none_of_head (by decide) (by decide)
            simp only [scanLiteral, if_neg hN, if_neg hT, if_neg hF, hpn,
              if_pos hNa, Option.some.injEq] at h
            obtain ⟨rfl, hdrop⟩ := (PRes.jv.injEq ..).mp h
            have hlen : (3 : Nat) ≤ ('N' :: rest₀).length := startsWith_length hNa
            simp only [scanLiteral, rejN, rejT, rejF, Bool.false_eq_true, if_false, hnum,
              if_pos (listStartsWith_append hNa t), Option.some.injEq]
            rw [List.drop_append_of_le_length hlen, hdrop]
            simp
          · by_cases hI : listStartsWith l strInf = true
            · obtain ⟨rest₀, rfl, -⟩ := startsWith_cons (eInf ▸ hI)
              have rejN : listStartsWith (('I' :: rest₀) ++ t) strNull = false := by
                rw [eNull]; exact startsWith_append_false (by decide)
              have rejT : listStartsWith (('I' :: rest₀) ++ t) strTrue = false := by
                rw [eTrue]; exact startsWith_append_false (by decide)
              have rejF : listStartsWith (('I' :: rest₀) ++ t) strFalse = false := by
                rw [eFalse]; exact startsWith_append_false (by decide)
              have rejNa : listStartsWith (('I' :: rest₀) ++ t) strNaN = false := by
                rw [eNaN]; exact startsWith_append_false (by decide)
              have hnum : parseNumber (('I' :: rest₀) ++ t) = none := by
                rw [List.cons_append]
                exact parseNumber_none_of_head (by decide) (by decide)
              simp only [scanLiteral, if_neg hN, if_neg hT, if_neg hF, hpn,
                if_neg hNa, if_pos hI, Option.some.injEq] at h
              obtain ⟨rfl, hdrop⟩ := (PRes.jv.injEq ..).mp h
              have hlen : (8 : Nat) ≤ ('I' :: rest₀).length := startsWith_length hI
              simp only [scanLiteral, rejN, rejT, rejF, rejNa, Bool.false_eq_true,
                if_false, hnum, if_pos (listStartsWith_append hI t), Option.some.injEq]
              rw [List.drop_append_of_le_length hlen, hdrop]
              simp
            · by_cases hMI : listStartsWith l strNegInf = true
              · obtain ⟨rest₀, rfl, h2⟩ := startsWith_cons (eNegInf ▸ hMI)
                obtain ⟨rest₁, rfl, -⟩ := startsWith_cons h2
                have rejN : listStartsWith (('-' :: 'I' :: rest₁) ++ t) strNull = false := by
                  rw [eNull]; exact startsWith_append_false (by decide)
                have rejT : listStartsWith (('-' :: 'I' :: rest₁) ++ t) strTrue = false := by
                  rw [eTrue]; exact startsWith_append_false (by decide)
                have rejF : listStartsWith (('-' :: 'I' :: rest₁) ++ t) strFalse = false := by
                  rw [eFalse]; exact startsWith_append_false (by decide)
                have rejNa : listStartsWith (('-' :: 'I' :: rest₁) ++ t) strNaN = false := by
                  rw [eNaN]; exact startsWith_append_false (by decide)
                have rejI : listStartsWith (('-' :: 'I' :: rest₁) ++ t) strInf = false := by
                  rw [eInf]; exact startsWith_append_false (by decide)
                have hnum : parseNumber (('-' :: 'I' :: rest₁) ++ t) = none := by
                  rw [List.cons_append, List.cons_append]
                  exact parseNumber_dash_nondigit (by decide)
                simp only [scanLiteral, if_neg hN, if_neg hT, if_neg hF, hpn,
                  if_neg hNa, if_neg hI, if_pos hMI, Option.some.injEq] at h
                obtain ⟨rfl, hdrop⟩ := (PRes.jv.injEq ..).mp h
                have hlen : (9 : Nat) ≤ ('-' :: 'I' :: rest₁).length := startsWith_length hMI
                simp only [scanLiteral, rejN, rejT, rejF, rejNa, rejI, Bool.false_eq_true,
                  if_false, hnum, if_pos (listStartsWith_append hMI t), Option.some.injEq]
                rw [List.drop_append_of_le_length hlen, hdrop]
                simp
              · simp only [scanLiteral, if_neg hN, if_neg hT, if_neg hF, hpn,
                  if_neg hNa, if_neg hI, if_neg hMI] at h
                exact absurd h (by simp)

theorem parseStep_val_nil (f : Nat) : parseStep f (.val []) = none := by
  cases f <;> simp [parseStep]

theorem parseStep_strRest_nil (f : Nat) : parseStep f (.strRest []) = none := by
  cases f <;> simp [parseStep]

theorem parseStep_strRest_bs (f : Nat) : parseStep f (.strRest ['\\']) = none := by
  cases f <;> simp [parseStep]

theorem parseStep_strRest_bs_u_short (f : Nat) {rr : List Char} (hl : rr.length ≤ 3) :
    parseStep f (.strRest ('\\' :: 'u' :: rr)) = none := by
  cases f with
  | zero => simp [parseStep]
  | succ f =>
    rcases rr with _ | ⟨a, _ | ⟨b, _ | ⟨c, _ | ⟨d, rest⟩⟩⟩⟩ <;> simp [parseStep] at hl ⊢

theorem objRest_head {f : Nat} {ps : List (String × Json)} {l : List Char} {r : PRes}
    (h : parseStep f (.objRest ps l) = some r) :
    ∃ c₀ rr₀, skipWs l = c₀ :: rr₀ ∧ (c₀ = '\x7d' ∨ c₀ = ',') := by
  cases f with
  | zero => simp [parseStep] at h
  | succ f =>
    cases hsw : skipWs l with
    | nil => rw [parseStep, hsw] at h; simp at h
    | cons c rest =>
      refine ⟨c, rest, rfl, ?_⟩
      by_cases hc : c = '\x7d'
      · exact Or.inl hc
      · by_cases hcm : c = ','
        · exact Or.inr hcm
        · rw [parseStep, hsw] at h
          simp only at h
          rw [if_neg hc, if_neg hcm] at h
          simp at h

theorem arrRest_head {f : Nat} {es : List Json} {l : List Char} {r : PRes}
    (h : parseStep f (.arrRest es l) = some r) :
    ∃ c₀ rr₀, skipWs l = c₀ :: rr₀ ∧ (c₀ = ']' ∨ c₀ = ',') := by
  cases f with
  | zero => simp [parseStep] at h
  | succ f =>
    cases hsw : skipWs l with
    | nil => rw [parseStep, hsw] at h; simp at h
    | cons c rest =>
      refine ⟨c, rest, rfl, ?_⟩
      by_cases hc : c = ']'
      · exact Or.inl hc
      · by_cases hcm : c = ','
        · exact Or.inr hcm
        · rw [parseStep, hsw] at h
          simp only at h
          rw [if_neg hc, if_neg hcm] at h
          simp at h

/-- The head of a list whose whitespace-skipped form starts with a
number-safe character is itself number-safe. -/
theorem head_numSafe {l : List Char} {c₀ : Char} {rr₀ : List Char}
    (hsw : skipWs l = c₀ :: rr₀) (hc : numSafe c₀) :
    ∃ c rr, l = c :: rr ∧ numSafe c := by
  obtain ⟨c, rr, rfl, hws | rfl⟩ := head_of_skipWs hsw
  · exact ⟨c, rr, rfl, jsonWs_numSafe hws⟩
  · exact ⟨c, rr, rfl, hc⟩

theorem surrLook_append_pair {l : List Char} {w : Nat} {r4 : List Char}
    (h : surrLook l = .pair w r4) (t : List Char) :
    surrLook (l ++ t) = .pair w (r4 ++ t) := by
  rcases l with _ | ⟨b, _ | ⟨b2, _ | ⟨g1, _ | ⟨g2, _ | ⟨g3, _ | ⟨g4, rest4⟩⟩⟩⟩⟩⟩ <;>
    simp only [surrLook] at h
  iterate 6 exact absurd h (by simp)
  by_cases hbu : b = '\\' ∧ b2 = 'u'
  · rw [if_pos hbu] at h
    cases hx : hex4 g1 g2 g3 g4 with
    | none => rw [hx] at h; simp at h
    | some w' =>
      rw [hx] at h
      simp only at h
      by_cases hlow : 0xdc00 ≤ w' ∧ w' ≤ 0xdfff
      · rw [if_pos hlow] at h
        obtain ⟨rfl, rfl⟩ := (SurrLook.pair.injEq ..).mp h
        simp only [List.cons_append, surrLook, if_pos hbu, hx, if_pos hlow]
      · rw [if_neg hlow] at h; simp at h
  · rw [if_neg hbu] at h; simp at h

theorem surrLook_append_bad {l : List Char} (h : surrLook l = .bad) (t : List Char) :
    surrLook (l ++ t) = .bad := by
  rcases l with _ | ⟨b, _ | ⟨b2, _ | ⟨g1, _ | ⟨g2, _ | ⟨g3, _ | ⟨g4, rest4⟩⟩⟩⟩⟩⟩ <;>
    simp only [surrLook] at h
  iterate 6 exact absurd h (by simp)
  by_cases hbu : b = '\\' ∧ b2 = 'u'
  · rw [if_pos hbu] at h
    cases hx : hex4 g1 g2 g3 g4 with
    | none => simp only [List.cons_append, surrLook, if_pos hbu, hx]
    | some w' =>
      rw [hx] at h
      simp only at h
      by_cases hlow : 0xdc00 ≤ w' ∧ w' ≤ 0xdfff
      · rw [if_pos hlow] at h; simp at h
      · rw [if_neg hlow] at h; simp at h
  · rw [if_neg hbu] at h; simp at h

theorem surrLook_head_ne {b : Char} (hb : ¬b = '\\') (l' : List Char) :
    surrLook (b :: l') = .lone := by
  rcases l' with _ | ⟨b2, _ | ⟨g1, _ | ⟨g2, _ | ⟨g3, _ | ⟨g4, rest4⟩⟩⟩⟩⟩ <;>
    simp [surrLook, hb]

theorem surrLook_head2_ne {b b2 : Char} (hb2 : ¬b2 = 'u') (l' : List Char) :
    surrLook (b :: b2 :: l') = .lone := by
  rcases l' with _ | ⟨g1, _ | ⟨g2, _ | ⟨g3, _ | ⟨g4, rest4⟩⟩⟩⟩ <;>
    simp [surrLook, hb2]

theorem surrLook_lone_cases {l : List Char} (h : surrLook l = .lone) :
    (∀ t, surrLook (l ++ t) = SurrLook.lone)
    ∨ l = [] ∨ l = ['\\'] ∨ (∃ rr, l = '\\' :: 'u' :: rr ∧ rr.length ≤ 3) := by
  rcases l with _ | ⟨b, _ | ⟨b2, _ | ⟨g1, _ | ⟨g2, _ | ⟨g3, _ | ⟨g4, rest4⟩⟩⟩⟩⟩⟩
  · exact Or.inr (Or.inl rfl)
  · by_cases hb : b = '\\'
    · subst hb; exact Or.inr (Or.inr (Or.inl rfl))
    · exact Or.inl fun t => surrLook_head_ne hb t
  · by_cases hb : b = '\\'
    · by_cases hb2 : b2 = 'u'
      · subst hb; subst hb2
        exact Or.inr (Or.inr (Or.inr ⟨[], rfl, by simp⟩))
      · exact Or.inl fun t => surrLook_head2_ne hb2 (([] : List Char) ++ t)
    · exact Or.inl fun t => surrLook_head_ne hb _
  · by_cases hb : b = '\\'
    · by_cases hb2 : b2 = 'u'
      · subst hb; subst hb2
        exact Or.inr (Or.inr (Or.inr ⟨[g1], rfl, by simp⟩))
      · exact Or.inl fun t => surrLook_head2_ne hb2 _
    · exact Or.inl fun t => surrLook_head_ne hb _
  · by_cases hb : b = '\\'
    · by_cases hb2 : b2 = 'u'
      · subst hb; subst hb2
        exact Or.inr (Or.inr (Or.inr ⟨[g1, g2], rfl, by simp⟩))
      · exact Or.inl fun t => surrLook_head2_ne hb2 _
    · exact Or.inl fun t => surrLook_head_ne hb _
  · by_cases hb : b = '\\'
    · by_cases hb2 : b2 = 'u'
      · subst hb; subst hb2
        exact Or.inr (Or.inr (Or.inr ⟨[g1, g2, g3], rfl, by simp⟩))
      · exact Or.inl fun t => surrLook_head2_ne hb2 _
    · exact Or.inl fun t => surrLook_head_ne hb _
  · by_cases hbu : b = '\\' ∧ b2 = 'u'
    · simp only [surrLook, if_pos hbu] at h
      cases hx : hex4 g1 g2 g3 g4 with
      | none => rw [hx] at h; simp at h
      | some w' =>
        rw [hx] at h
        simp only at h
        by_cases hlow : 0xdc00 ≤ w' ∧ w' ≤ 0xdfff
        · rw [if_pos hlow] at h; simp at h
        · refine Or.inl fun t => ?_
          simp only [List.cons_append, surrLook, if_pos hbu, hx, if_neg hlow]
    · refine Or.inl fun t => ?_
      simp only [List.cons_append, surrLook, if_neg hbu]

/-- Scanning is insensitive to text appended beyond the consumed region: under
`okAppend`, a successful scan of `l` scans `l ++ t` to the same result with
`t` still unconsumed.  This is what lets `raw_decode` ignore trailing junk. -/
theorem parseStep_append : ∀ f a r t, parseStep f a = some r → okAppend a r →
    parseStep f (argAppend t a) = some (resAppend t r) := by
  intro f
  induction f with
  | zero => intro a r t h _; simp [parseStep] at h
  | succ f ih =>
    intro a r t h hok
    cases a with
    | val l =>
      cases l with
      | nil => simp [parseStep] at h
      | cons c rest =>
        simp only [argAppend, List.cons_append]
        simp only [parseStep] at h ⊢
        by_cases hq : c = '"'
        · simp only [if_pos hq] at h ⊢
          obtain ⟨s, rr, ho, rfl⟩ := mapStr_eq_some h
          have hih := ih (.strRest rest) (.sv s rr) t ho trivial
          simp only [argAppend, resAppend] at hih
          rw [hih]; rfl
        · simp only [if_neg hq] at h ⊢
          by_cases hb : c = '\x7b'
          · simp only [if_pos hb] at h ⊢
            have hih := ih (.objBody rest) r t h trivial
            simpa [argAppend, resAppend] using hih
          · simp only [if_neg hb] at h ⊢
            by_cases ha : c = '['
            · simp only [if_pos ha] at h ⊢
              have hih := ih (.arrBody rest) r t h trivial
              simpa [argAppend, resAppend] using hih
            · simp only [if_neg ha] at h ⊢
              rcases hok with ⟨cf, rrf, hres, hsafe⟩ | ⟨cs, hcs⟩
              · obtain ⟨vv, restv, rfl⟩ := scanLiteral_jv h
                simp only [resRest] at hres
                subst hres
                have := scanLiteral_append h hsafe t
                simpa [resAppend] using this
              · exact absurd ((List.cons.injEq ..).mp hcs).1 hb
    | objBody l =>
      simp only [argAppend]
      cases hsw : skipWs l with
      | nil => simp [parseStep, hsw] at h
      | cons c rest =>
        have hsww := skipWs_append_cons hsw t
        by_cases hc : c = '\x7d'
        · simp only [parseStep, hsw, if_pos hc, Option.some.injEq] at h
          subst h
          simp [parseStep, hsww, hc, resAppend]
        · by_cases hq : c = '"'
          · cases hks : parseStep f (.strRest rest) with
            | none => simp [parseStep, hsw, hc, hq, hks] at h
            | some p =>
              cases p with
              | jv v r1 => simp [parseStep, hsw, hc, hq, hks] at h
              | sv k r1 =>
                have hks' := ih (.strRest rest) (.sv k r1) t hks trivial
                simp only [argAppend, resAppend] at hks'
                cases hsw1 : skipWs r1 with
                | nil => simp [parseStep, hsw, hc, hq, hks, hsw1] at h
                | cons c1 r2 =>
                  have hsw1' := skipWs_append_cons hsw1 t
                  by_cases hcol : c1 = ':'
                  · cases hv : parseStep f (.val (skipWs r2)) with
                    | none => simp [parseStep, hsw, hc, hq, hks, hsw1, hcol, hv] at h
                    | some p2 =>
                      cases p2 with
                      | sv s r3 => simp [parseStep, hsw, hc, hq, hks, hsw1, hcol, hv] at h
                      | jv v r3 =>
                        simp only [parseStep, hsw, hc, hq, hks, hsw1, hcol, hv,
                          if_neg, if_pos, reduceIte] at h
                        obtain ⟨ch, rt, hr3, hsafe⟩ : ∃ ch rt, r3 = ch :: rt ∧ numSafe ch := by
                          obtain ⟨c₀, rr₀, hsw3, hdel⟩ := objRest_head h
                          have hns : numSafe c₀ := by
                            rcases hdel with rfl | rfl
                            · exact ⟨by decide, by decide, by decide⟩
                            · exact ⟨by decide, by decide, by decide⟩
                          exact head_numSafe hsw3 hns
                        obtain ⟨w0, ws0, hsw2⟩ : ∃ w0 ws0, skipWs r2 = w0 :: ws0 := by
                          cases hz : skipWs r2 with
                          | nil => rw [hz, parseStep_val_nil] at hv; exact absurd hv (by simp)
                          | cons w0 ws0 => exact ⟨w0, ws0, rfl⟩
                        have hskr2 : skipWs (r2 ++ t) = skipWs r2 ++ t := by
                          rw [skipWs_append_cons hsw2 t, hsw2]; simp
                        have hv' := ih (.val (skipWs r2)) (.jv v r3) t hv
                          (Or.inl ⟨ch, rt, by simp [resRest, hr3], hsafe⟩)
                        simp only [argAppend, resAppend] at hv'
                        have hor' := ih (.objRest [(String.mk k, v)] r3) r t h trivial
                        simp only [argAppend] at hor'
                        simp only [parseStep, hsww, hc, hq, hks', hsw1', hcol, hskr2, hv',
                          if_neg, if_pos, reduceIte]
                        exact hor'
                  · simp [parseStep, hsw, hc, hq, hks, hsw1, hcol] at h
          · simp [parseStep, hsw, hc, hq] at h
    | objRest pairs l =>
      simp only [argAppend]
      cases hsw : skipWs l with
      | nil => simp [parseStep, hsw] at h
      | cons c rest =>
        have hsww := skipWs_append_cons hsw t
        by_cases hc : c = '\x7d'
        · simp only [parseStep, hsw, if_pos hc, Option.some.injEq] at h
          subst h
          simp [parseStep, hsww, hc, resAppend]
        · by_cases hcm : c = ','
          · cases hsw0 : skipWs rest with
            | nil => simp [parseStep, hsw, hc, hcm, hsw0] at h
            | cons c0 r1 =>
              have hsw0' := skipWs_append_cons hsw0 t
              by_cases hq : c0 = '"'
              · cases hks : parseStep f (.strRest r1) with
                | none => simp [parseStep, hsw, hc, hcm, hsw0, hq, hks] at h
                | some p =>
                  cases p with
                  | jv v r2 => simp [parseStep, hsw, hc, hcm, hsw0, hq, hks] at h
                  | sv k r2 =>
                    have hks' := ih (.strRest r1) (.sv k r2) t hks trivial
                    simp only [argAppend, resAppend] at hks'
                    cases hsw1 : skipWs r2 with
                    | nil => simp [parseStep, hsw, hc, hcm, hsw0, hq, hks, hsw1] at h
                    | cons c1 r3 =>
                      have hsw1' := skipWs_append_cons hsw1 t
                      by_cases hcol : c1 = ':'
                      · cases hv : parseStep f (.val (skipWs r3)) with
                        | none =>
                          simp [parseStep, hsw, hc, hcm, hsw0, hq, hks, hsw1, hcol, hv] at h
                        | some p2 =>
                          cases p2 with
                          | sv s r4 =>
                            simp [parseStep, hsw, hc, hcm, hsw0, hq, hks, hsw1, hcol, hv] at h
                          | jv v r4 =>
                            simp only [parseStep, hsw, hc, hcm, hsw0, hq, hks, hsw1, hcol,
                              hv, if_neg, if_pos, reduceIte] at h
                            obtain ⟨ch, rt, hr4, hsafe⟩ :
                                ∃ ch rt, r4 = ch :: rt ∧ numSafe ch := by
                              obtain ⟨c₀, rr₀, hsw3, hdel⟩ := objRest_head h
                              have hns : numSafe c₀ := by
                                rcases hdel with rfl | rfl
                                · exact ⟨by decide, by decide, by decide⟩
                                · exact ⟨by decide, by decide, by decide⟩
                              exact head_numSafe hsw3 hns
                            obtain ⟨w0, ws0, hsw2⟩ : ∃ w0 ws0, skipWs r3 = w0 :: ws0 := by
                              cases hz : skipWs r3 with
                              | nil =>
                                rw [hz, parseStep_val_nil] at hv; exact absurd hv (by simp)
                              | cons w0 ws0 => exact ⟨w0, ws0, rfl⟩
                            have hskr3 : skipWs (r3 ++ t) = skipWs r3 ++ t := by
                              rw [skipWs_append_cons hsw2 t, hsw2]; simp
                            have hv' := ih (.val (skipWs r3)) (.jv v r4) t hv
                              (Or.inl ⟨ch, rt, by simp [resRest, hr4], hsafe⟩)
                            simp only [argAppend, resAppend] at hv'
                            have hor' := ih (.objRest (pairs ++ [(String.mk k, v)]) r4) r t
                              h trivial
                            simp only [argAppend] at hor'
                            simp only [parseStep, hsww, hc, hcm, hsw0', hq, hks', hsw1',
                              hcol, hskr3, hv', if_neg, if_pos, reduceIte]
                            exact hor'
                      · simp [parseStep, hsw, hc, hcm, hsw0, hq, hks, hsw1, hcol] at h
              · simp [parseStep, hsw, hc, hcm, hsw0, hq] at h
          · simp [parseStep, hsw, hc, hcm] at h
    | arrBody l =>
      simp only [argAppend]
      cases hsw : skipWs l with
      | nil => simp [parseStep, hsw] at h
      | cons c rest =>
        have hsww := skipWs_append_cons hsw t
        by_cases hc : c = ']'
        · simp only [parseStep, hsw, if_pos hc, Option.some.injEq] at h
          subst h
          simp [parseStep, hsww, hc, resAppend]
        · cases hv : parseStep f (.val (c :: rest)) with
          | none => simp [parseStep, hsw, hc, hv] at h
          | some p =>
            cases p with
            | sv s rv => simp [parseStep, hsw, hc, hv] at h
            | jv v rv =>
              simp only [parseStep, hsw, hc, hv, if_neg, if_pos, reduceIte] at h
              obtain ⟨ch, rt, hrv, hsafe⟩ : ∃ ch rt, rv = ch :: rt ∧ numSafe ch := by
                obtain ⟨c₀, rr₀, hsw3, hdel⟩ := arrRest_head h
                have hns : numSafe c₀ := by
                  rcases hdel with rfl | rfl
                  · exact ⟨by decide, by decide, by decide⟩
                  · exact ⟨by decide, by decide, by decide⟩
                exact head_numSafe hsw3 hns
              have hv' := ih (.val (c :: rest)) (.jv v rv) t hv
                (Or.inl ⟨ch, rt, by simp [resRest, hrv], hsafe⟩)
              simp only [argAppend, resAppend, List.cons_append] at hv'
              have har' := ih (.arrRest [v] rv) r t h trivial
              simp only [argAppend] at har'
              simp only [parseStep, hsww, hc, hv', if_neg, if_pos, reduceIte]
              exact har'
    | arrRest elems l =>
      simp only [argAppend]
      cases hsw : skipWs l with
      | nil => simp [parseStep, hsw] at h
      | cons c rest =>
        have hsww := skipWs_append_cons hsw t
        by_cases hc : c = ']'
        · simp only [parseStep, hsw, if_pos hc, Option.some.injEq] at h
          subst h
          simp [parseStep, hsww, hc, resAppend]
        · by_cases hcm : c = ','
          · cases hv : parseStep f (.val (skipWs rest)) with
            | none => simp [parseStep, hsw, hc, hcm, hv] at h
            | some p =>
              cases p with
              | sv s rv => simp [parseStep, hsw, hc, hcm, hv] at h
              | jv v rv =>
                simp only [parseStep, hsw, hc, hcm, hv, if_neg, if_pos, reduceIte] at h
                obtain ⟨ch, rt, hrv, hsafe⟩ : ∃ ch rt, rv = ch :: rt ∧ numSafe ch := by
                  obtain ⟨c₀, rr₀, hsw3, hdel⟩ := arrRest_head h
                  have hns : numSafe c₀ := by
                    rcases hdel with rfl | rfl
                    · exact ⟨by decide, by decide, by decide⟩
                    · exact ⟨by decide, by decide, by decide⟩
                  exact head_numSafe hsw3 hns
                obtain ⟨w0, ws0, hsw2⟩ : ∃ w0 ws0, skipWs rest = w0 :: ws0 := by
                  cases hz : skipWs rest with
                  | nil => rw [hz, parseStep_val_nil] at hv; exact absurd hv (by simp)
                  | cons w0 ws0 => exact ⟨w0, ws0, rfl⟩
                have hskr : skipWs (rest ++ t) = skipWs rest ++ t := by
                  rw [skipWs_append_cons hsw2 t, hsw2]; simp
                have hv' := ih (.val (skipWs rest)) (.jv v rv) t hv
                  (Or.inl ⟨ch, rt, by simp [resRest, hrv], hsafe⟩)
                simp only [argAppend, resAppend] at hv'
                have har' := ih (.arrRest (elems ++ [v]) rv) r t h trivial
                simp only [argAppend] at har'
                simp only [parseStep, hsww, hc, hcm, hskr, hv', if_neg, if_pos, reduceIte]
                exact har'
          · simp [parseStep, hsw, hc, hcm] at h
    | strRest l =>
      cases l with
      | nil => simp [parseStep] at h
      | cons c rest =>
        simp only [argAppend, List.cons_append]
        simp only [parseStep] at h ⊢
        by_cases hq : c = '"'
        · simp only [if_pos hq] at h ⊢
          obtain rfl := Option.some.inj h
          rfl
        · simp only [if_neg hq] at h ⊢
          by_cases hbs : c = '\\'
          · simp only [if_pos hbs] at h ⊢
            cases rest with
            | nil => exact absurd h (by simp)
            | cons e rest2 =>
              simp only [List.cons_append]
              by_cases hu : e = 'u'
              · simp only [if_pos hu] at h ⊢
                rcases rest2 with _ | ⟨h1, _ | ⟨h2, _ | ⟨h3, _ | ⟨h4, rest3⟩⟩⟩⟩
                · exact absurd h (by simp)
                · exact absurd h (by simp)
                · exact absurd h (by simp)
                · exact absurd h (by simp)
                · simp only at h
                  simp only [List.cons_append]
                  cases hhex : hex4 h1 h2 h3 h4 with
                  | none => rw [hhex] at h; exact absurd h (by simp)
                  | some u =>
                    rw [hhex] at h
                    simp only [hhex]
                    by_cases hsur : 0xd800 ≤ u ∧ u ≤ 0xdbff
                    · simp only [if_pos hsur] at h ⊢
                      cases hsl : surrLook rest3 with
                      | pair w rest4 =>
                        rw [hsl] at h
                        simp only at h
                        rw [surrLook_append_pair hsl t]
                        obtain ⟨s, rr, ho, rfl⟩ := mapCons_eq_some h
                        have hih := ih (.strRest rest4) (.sv s rr) t ho trivial
                        simp only [argAppend, resAppend] at hih
                        simp only [hih, mapCons]; rfl
                      | lone =>
                        rw [hsl] at h
                        simp only at h
                        obtain ⟨s, rr, ho, rfl⟩ := mapCons_eq_some h
                        rcases surrLook_lone_cases hsl with hall | rfl | rfl | ⟨rrs, rfl, hlen⟩
                        · rw [hall t]
                          have hih := ih (.strRest rest3) (.sv s rr) t ho trivial
                          simp only [argAppend, resAppend] at hih
                          simp only [hih, mapCons]; rfl
                        · rw [parseStep_strRest_nil] at ho; exact absurd ho (by simp)
                        · rw [parseStep_strRest_bs] at ho; exact absurd ho (by simp)
                        · rw [parseStep_strRest_bs_u_short f hlen] at ho
                          exact absurd ho (by simp)
                      | bad => rw [hsl] at h; exact absurd h (by simp)
                    · simp only [if_neg hsur] at h ⊢
                      obtain ⟨s, rr, ho, rfl⟩ := mapCons_eq_some h
                      have hih := ih (.strRest rest3) (.sv s rr) t ho trivial
                      simp only [argAppend, resAppend] at hih
                      simp only [hih, mapCons]; rfl
              · simp only [if_neg hu] at h ⊢
                cases hesc : escMap e with
                | none => rw [hesc] at h; exact absurd h (by simp)
                | some ec =>
                  rw [hesc] at h
                  simp only [hesc]
                  simp only at h
                  obtain ⟨s, rr, ho, rfl⟩ := mapCons_eq_some h
                  have hih := ih (.strRest rest2) (.sv s rr) t ho trivial
                  simp only [argAppend, resAppend] at hih
                  simp only [hih, mapCons]; rfl
          · simp only [if_neg hbs] at h ⊢
            by_cases hctl : c.toNat < 32
            · simp only [if_pos hctl] at h; exact absurd h (by simp)
            · simp only [if_neg hctl] at h ⊢
              obtain ⟨s, rr, ho, rfl⟩ := mapCons_eq_some h
              have hih := ih (.strRest rest) (.sv s rr) t ho trivial
              simp only [argAppend, resAppend] at hih
              simp only [hih, mapCons]; rfl

/-! ### Shape inversion: an object result comes from a `{` -/

theorem numAfterInt_not_obj {neg : Bool} {ip rest : List Char} {kvs : List (String × Json)} :
    (numAfterInt neg ip rest).1 ≠ Json.obj kvs := by
  simp only [numAfterInt]
  split <;> simp

theorem parseNumber_not_obj {l : List Char} {v : Json} {r : List Char}
    (h : parseNumber l = some (v, r)) {kvs : List (String × Json)} : v ≠ Json.obj kvs := by
  cases l with
  | nil => simp [parseNumber] at h
  | cons c rest =>
    simp only [parseNumber] at h
    have core : ∀ (neg : Bool) (l1 : List Char), parseNumCore neg l1 = some (v, r) →
        v ≠ Json.obj kvs := by
      intro neg l1 hc
      cases l1 with
      | nil => simp [parseNumCore] at hc
      | cons c1 r2 =>
        simp only [parseNumCore] at hc
        split at hc
        · obtain ⟨h1, -⟩ := (Prod.mk.injEq ..).mp (Option.some.inj hc)
          rw [← h1]; exact numAfterInt_not_obj
        · split at hc
          · obtain ⟨h1, -⟩ := (Prod.mk.injEq ..).mp (Option.some.inj hc)
            rw [← h1]; exact numAfterInt_not_obj
          · simp at hc
    split at h
    · exact core _ _ h
    · exact core _ _ h

theorem scanLiteral_not_obj {l : List Char} {v : Json} {rest : List Char}
    (h : scanLiteral l = some (.jv v rest)) {kvs : List (String × Json)} :
    v ≠ Json.obj kvs := by
  simp only [scanLiteral] at h
  split at h
  · obtain ⟨h1, -⟩ := (PRes.jv.injEq ..).mp (Option.some.inj h); rw [← h1]; simp
  · split at h
    · obtain ⟨h1, -⟩ := (PRes.jv.injEq ..).mp (Option.some.inj h); rw [← h1]; simp
    · split at h
      · obtain ⟨h1, -⟩ := (PRes.jv.injEq ..).mp (Option.some.inj h); rw [← h1]; simp
      · split at h
        · rename_i v' r' hpn
          obtain ⟨h1, -⟩ := (PRes.jv.injEq ..).mp (Option.some.inj h)
          rw [← h1]
          exact parseNumber_not_obj hpn
        · split at h
          · obtain ⟨h1, -⟩ := (PRes.jv.injEq ..).mp (Option.some.inj h); rw [← h1]; simp
          · split at h
            · obtain ⟨h1, -⟩ := (PRes.jv.injEq ..).mp (Option.some.inj h); rw [← h1]; simp
            · split at h
              · obtain ⟨h1, -⟩ := (PRes.jv.injEq ..).mp (Option.some.inj h)
                rw [← h1]; simp
              · simp at h

theorem parseStep_arrBody_shape : ∀ f {l : List Char} {r : PRes},
    parseStep f (.arrBody l) = some r → ∃ es rest, r = .jv (Json.arr es) rest := by
  have harr : ∀ f {es0 : List Json} {l : List Char} {r : PRes},
      parseStep f (.arrRest es0 l) = some r → ∃ es rest, r = .jv (Json.arr es) rest := by
    intro f
    induction f with
    | zero => intro es0 l r h; simp [parseStep] at h
    | succ f ih =>
      intro es0 l r h
      cases hsw : skipWs l with
      | nil => rw [parseStep, hsw] at h; simp at h
      | cons c rest =>
        rw [parseStep, hsw] at h
        simp only at h
        by_cases hc : c = ']'
        · rw [if_pos hc] at h
          exact ⟨es0, rest, (Option.some.inj h).symm⟩
        · rw [if_neg hc] at h
          by_cases hcm : c = ','
          · rw [if_pos hcm] at h
            cases hv : parseStep f (.val (skipWs rest)) with
            | none => rw [hv] at h; simp at h
            | some p =>
              rw [hv] at h
              cases p with
              | sv s rv => simp at h
              | jv v rv => exact ih h
          · rw [if_neg hcm] at h; simp at h
  intro f l r h
  cases f with
  | zero => simp [parseStep] at h
  | succ f =>
    cases hsw : skipWs l with
    | nil => rw [parseStep, hsw] at h; simp at h
    | cons c rest =>
      rw [parseStep, hsw] at h
      simp only at h
      by_cases hc : c = ']'
      · rw [if_pos hc] at h
        exact ⟨[], rest, (Option.some.inj h).symm⟩
      · rw [if_neg hc] at h
        cases hv : parseStep f (.val (c :: rest)) with
        | none => rw [hv] at h; simp at h
        | some p =>
          rw [hv] at h
          cases p with
          | sv s rv => simp at h
          | jv v rv => exact harr f h

/-- A value scan that produces an object consumed an opening brace first. -/
theorem parseStep_val_obj_head {f : Nat} {l : List Char} {kvs : List (String × Json)}
    {rest : List Char} (h : parseStep f (.val l) = some (.jv (Json.obj kvs) rest)) :
    ∃ cs, l = '\x7b' :: cs := by
  cases f with
  | zero => simp [parseStep] at h
  | succ f =>
    cases l with
    | nil => simp [parseStep] at h
    | cons c cs =>
      refine ⟨cs, ?_⟩
      simp only [parseStep] at h
      by_cases hq : c = '"'
      · rw [if_pos hq] at h
        obtain ⟨s, rr, -, habs⟩ := mapStr_eq_some h
        simp at habs
      · rw [if_neg hq] at h
        by_cases hb : c = '\x7b'
        · rw [hb]
        · rw [if_neg hb] at h
          by_cases ha : c = '['
          · rw [if_pos ha] at h
            obtain ⟨es, r', habs⟩ := parseStep_arrBody_shape f h
            simp at habs
          · rw [if_neg ha] at h
            exact absurd rfl (scanLiteral_not_obj h)

/-! ### First-brace location -/

theorem findBrace_head {l rest : List Char} (h : findBrace l = some rest) :
    ∃ cs, rest = '\x7b' :: cs := by
  induction l with
  | nil => simp [findBrace] at h
  | cons c cs ih =>
    simp only [findBrace] at h
    by_cases hb : c = '\x7b'
    · rw [if_pos hb] at h
      exact ⟨cs, by rw [← Option.some.inj h, hb]⟩
    · rw [if_neg hb] at h
      exact ih h

theorem findBrace_append_no_brace {pre l : List Char}
    (hpre : ∀ c ∈ pre, ¬c = '\x7b') : findBrace (pre ++ l) = findBrace l := by
  induction pre with
  | nil => rfl
  | cons c cs ih =>
    simp only [List.cons_append, findBrace, if_neg (hpre c (by simp))]
    exact ih fun d hd => hpre d (by simp [hd])

theorem findBrace_brace {cs : List Char} :
    findBrace ('\x7b' :: cs) = some ('\x7b' :: cs) := by
  simp [findBrace]

/-- `raw_decode` of a complete object document followed by arbitrary junk
decodes the object and leaves the junk unconsumed. -/
theorem rawDecode_obj_append {objL post : List Char} {kvs : List (String × Json)}
    (h : rawDecode objL = some (Json.obj kvs, [])) :
    rawDecode (objL ++ post) = some (Json.obj kvs, post) := by
  simp only [rawDecode] at h
  cases hp : parseStep (scanFuel objL) (.val objL) with
  | none => rw [hp] at h; simp at h
  | some p =>
    rw [hp] at h
    cases p with
    | sv s r => simp at h
    | jv v r =>
      obtain ⟨hv, hr⟩ := (Prod.mk.injEq ..).mp (Option.some.inj h)
      subst hv; subst hr
      obtain ⟨cs, rfl⟩ := parseStep_val_obj_head hp
      have hle : scanFuel ('\x7b' :: cs) ≤ scanFuel (('\x7b' :: cs) ++ post) := by
        simp only [scanFuel, List.length_append, List.length_cons]
        omega
      have hp' := parseStep_mono _ _ _ _ hle hp
      have happ := parseStep_append _ (.val ('\x7b' :: cs)) _ post hp'
        (Or.inr ⟨cs, rfl⟩)
      simp only [argAppend, resAppend, List.nil_append] at happ
      simp only [rawDecode, happ]

/-- `extract_json_object` on text assembled as free text (with no `{`), a
complete JSON object document, and trailing free text recovers exactly the
object. -/
theorem extract_json_object_parts {pre objS post : String} {kvs : List (String × Json)}
    (hpre : ∀ c ∈ pre.toList, ¬c = '\x7b')
    (hobj : rawDecode objS.toList = some (Json.obj kvs, [])) :
    extract_json_object (pre ++ objS ++ post) = some (Json.obj kvs) := by
  obtain ⟨cs, hcs⟩ : ∃ cs, objS.toList = '\x7b' :: cs := by
    simp only [rawDecode] at hobj
    cases hp : parseStep (scanFuel objS.toList) (.val objS.toList) with
    | none => rw [hp] at hobj; simp at hobj
    | some p =>
      rw [hp] at hobj
      cases p with
      | sv s r => simp at hobj
      | jv v r =>
        obtain ⟨hv, -⟩ := (Prod.mk.injEq ..).mp (Option.some.inj hobj)
        subst hv
        exact parseStep_val_obj_head hp
  have htl : (pre ++ objS ++ post).toList = pre.toList ++ (objS.toList ++ post.toList) := by
    simp [String.toList, String.data_append]
  simp only [extract_json_object, htl,
    findBrace_append_no_brace hpre, hcs, List.cons_append, findBrace_brace]
  have := @rawDecode_obj_append _ post.toList _ hobj
  rw [hcs] at this
  simp only [List.cons_append] at this
  rw [this]

/-! ### Object results and truthiness of produced facets -/

theorem parseStep_objBody_shape : ∀ f {l : List Char} {r : PRes},
    parseStep f (.objBody l) = some r → ∃ kvs rest, r = .jv (Json.obj kvs) rest := by
  have hrest : ∀ f {ps : List (String × Json)} {l : List Char} {r : PRes},
      parseStep f (.objRest ps l) = some r → ∃ kvs rest, r = .jv (Json.obj kvs) rest := by
    intro f
    induction f with
    | zero => intro ps l r h; simp [parseStep] at h
    | succ f ih =>
      intro ps l r h
      cases hsw : skipWs l with
      | nil => rw [parseStep, hsw] at h; simp at h
      | cons c rest =>
        rw [parseStep, hsw] at h
        simp only at h
        by_cases hc : c = '\x7d'
        · rw [if_pos hc] at h
          exact ⟨mkDict ps, rest, (Option.some.inj h).symm⟩
        · rw [if_neg hc] at h
          by_cases hcm : c = ','
          · rw [if_pos hcm] at h
            cases hsw0 : skipWs rest with
            | nil => rw [hsw0] at h; simp at h
            | cons c0 r1 =>
              rw [hsw0] at h
              simp only at h
              by_cases hq : c0 = '"'
              · rw [if_pos hq] at h
                cases hks : parseStep f (.strRest r1) with
                | none => rw [hks] at h; simp at h
                | some p =>
                  rw [hks] at h
                  cases p with
                  | jv v r2 => simp at h
                  | sv k r2 =>
                    simp only at h
                    cases hsw1 : skipWs r2 with
                    | nil => rw [hsw1] at h; simp at h
                    | cons c1 r3 =>
                      rw [hsw1] at h
                      simp only at h
                      by_cases hcol : c1 = ':'
                      · rw [if_pos hcol] at h
                        cases hv : parseStep f (.val (skipWs r3)) with
                        | none => rw [hv] at h; simp at h
                        | some p2 =>
                          rw [hv] at h
                          cases p2 with
                          | sv s r4 => simp at h
                          | jv v r4 => exact ih h
                      · rw [if_neg hcol] at h; simp at h
              · rw [if_neg hq] at h; simp at h
          · rw [if_neg hcm] at h; simp at h
  intro f l r h
  cases f with
  | zero => simp [parseStep] at h
  | succ f =>
    cases hsw : skipWs l with
    | nil => rw [parseStep, hsw] at h; simp at h
    | cons c rest =>
      rw [parseStep, hsw] at h
      simp only at h
      by_cases hc : c = '\x7d'
      · rw [if_pos hc] at h
        exact ⟨[], rest, (Option.some.inj h).symm⟩
      · rw [if_neg hc] at h
        by_cases hq : c = '"'
        · rw [if_pos hq] at h
          cases hks : parseStep f (.strRest rest) with
          | none => rw [hks] at h; simp at h
          | some p =>
            rw [hks] at h
            cases p with
            | jv v r1 => simp at h
            | sv k r1 =>
              simp only at h
              cases hsw1 : skipWs r1 with
              | nil => rw [hsw1] at h; simp at h
              | cons c1 r2 =>
                rw [hsw1] at h
                simp only at h
                by_cases hcol : c1 = ':'
                · rw [if_pos hcol] at h
                  cases hv : parseStep f (.val (skipWs r2)) with
                  | none => rw [hv] at h; simp at h
                  | some p2 =>
                    rw [hv] at h
                    cases p2 with
                    | sv s r3 => simp at h
                    | jv v r3 => exact hrest f h
                · rw [if_neg hcol] at h; simp at h
        · rw [if_neg hq] at h; simp at h

/-- `extract_json_object` only ever returns objects: the decode starts at a
`{`. -/
theorem extract_json_object_isObj {text : String} {j : Json}
    (h : extract_json_object text = some j) : ∃ kvs, j = Json.obj kvs := by
  simp only [extract_json_object] at h
  cases hfb : findBrace text.toList with
  | none => rw [hfb] at h; simp at h
  | some rest =>
    rw [hfb] at h
    simp only at h
    cases hrd : rawDecode rest with
    | none => rw [hrd] at h; simp at h
    | some p =>
      rw [hrd] at h
      obtain ⟨v, r⟩ := p
      simp only at h
      obtain rfl := Option.some.inj h
      obtain ⟨cs, rfl⟩ := findBrace_head hfb
      simp only [rawDecode] at hrd
      cases hp : parseStep (scanFuel ('\x7b' :: cs)) (.val ('\x7b' :: cs)) with
      | none => rw [hp] at hrd; simp at hrd
      | some p =>
        rw [hp] at hrd
        cases p with
        | sv s rr => simp at hrd
        | jv v' rr =>
          obtain ⟨hv, -⟩ := (Prod.mk.injEq ..).mp (Option.some.inj hrd)
          subst hv
          cases hfuel : scanFuel ('\x7b' :: cs) with
          | zero => rw [hfuel] at hp; simp [parseStep] at hp
          | succ f =>
            rw [hfuel] at hp
            simp only [parseStep] at hp
            rw [if_pos trivial] at hp
            obtain ⟨kvs, rest', hr⟩ := parseStep_objBody_shape f hp
            exact ⟨kvs, by rw [(PRes.jv.injEq ..).mp hr |>.1]⟩

theorem insertKV_ne_nil (kvs : List (String × Json)) (k : String) (v : Json) :
    insertKV kvs k v ≠ [] := by
  cases kvs with
  | nil => simp [insertKV]
  | cons kv rest =>
    obtain ⟨k', v'⟩ := kv
    simp only [insertKV]
    split <;> simp

/-- A facet produced by `extract_facets` is always truthy: falsy recoveries
are filtered, and tagging a non-empty dict keeps it non-empty. -/
theorem facet_from_response_truthy {resp : Except String String} {sid : String} {f : Json}
    (h : facet_from_response resp sid = some f) : pyTruthy f = true := by
  cases resp with
  | error e => simp [facet_from_response] at h
  | ok text =>
    simp only [facet_from_response] at h
    cases hx : extract_json_object text with
    | none => rw [hx] at h; simp at h
    | some j =>
      rw [hx] at h
      simp only at h
      by_cases ht : pyTruthy j
      · rw [if_pos ht] at h
        obtain rfl := Option.some.inj h
        obtain ⟨kvs, rfl⟩ := extract_json_object_isObj hx
        simp [jsonSetKey, pyTruthy, insertKV_ne_nil]
      · rw [if_neg ht] at h; simp at h

/-! ### Batch result loop -/

theorem processResults_ok {save : Json → Except String Unit}
    (hsave : ∀ f, save f = Except.ok ()) :
    ∀ l : List (String × Option Json), processResults save l = Except.ok l := by
  intro l
  induction l with
  | nil => rfl
  | cons p rest ih =>
    obtain ⟨sid, f⟩ := p
    cases f with
    | none => simp [processResults, ih, Except.map]
    | some facet => simp [processResults, hsave facet, ih, Except.map]

/-! ### Chunking -/

theorem chunkSplit_nil_iff (c : Nat) (l : List Char) :
    chunkSplit (c + 1) l = [] ↔ l = [] := by
  cases l with
  | nil => simp [chunkSplit]
  | cons x xs => rw [chunkSplit]; simp

theorem chunkSplit_join (c : Nat) :
    ∀ (n : Nat) (l : List Char), l.length ≤ n → (chunkSplit (c + 1) l).flatten = l := by
  intro n
  induction n with
  | zero =>
    intro l hl
    obtain rfl : l = [] := by cases l <;> simp_all
    simp [chunkSplit]
  | succ n ih =>
    intro l hl
    cases l with
    | nil => simp [chunkSplit]
    | cons x xs =>
      rw [chunkSplit, List.flatten_cons]
      rw [ih ((x :: xs).drop (c + 1))
        (by simp only [List.length_drop, List.length_cons] at hl ⊢; omega)]
      exact List.take_append_drop ..

theorem chunkSplit_length_le (c : Nat) :
    ∀ (n : Nat) (l : List Char), l.length ≤ n →
      ∀ ch ∈ chunkSplit (c + 1) l, ch.length ≤ c + 1 := by
  intro n
  induction n with
  | zero =>
    intro l hl
    obtain rfl : l = [] := by cases l <;> simp_all
    simp [chunkSplit]
  | succ n ih =>
    intro l hl ch hch
    cases l with
    | nil => simp [chunkSplit] at hch
    | cons x xs =>
      rw [chunkSplit] at hch
      rcases List.mem_cons.mp hch with rfl | hmem
      · exact List.length_take_le ..
      · exact ih ((x :: xs).drop (c + 1))
          (by simp only [List.length_drop, List.length_cons] at hl ⊢; omega) ch hmem

theorem chunkSplit_full (c : Nat) :
    ∀ (n : Nat) (l : List Char), l.length ≤ n →
      ∀ pre ch post, chunkSplit (c + 1) l = pre ++ ch :: post → post ≠ [] →
        ch.length = c + 1 := by
  intro n
  induction n with
  | zero =>
    intro l hl
    obtain rfl : l = [] := by cases l <;> simp_all
    intro pre ch post hsplit _
    simp [chunkSplit] at hsplit
  | succ n ih =>
    intro l hl pre ch post hsplit hpost
    cases l with
    | nil =>
      simp [chunkSplit] at hsplit
    | cons x xs =>
      rw [chunkSplit] at hsplit
      cases pre with
      | nil =>
        simp only [List.nil_append] at hsplit
        obtain ⟨rfl, hrest⟩ := (List.cons.injEq ..).mp hsplit
        have hdrop : (x :: xs).drop (c + 1) ≠ [] := by
          intro hnil
          rw [← hrest, hnil] at hpost
          simp [chunkSplit] at hpost
        have hlen : c + 1 < (x :: xs).length := by
          by_contra hcon
          exact hdrop (List.drop_eq_nil_of_le (by omega))
        simp only [List.length_cons] at hlen
        simp only [List.length_take, List.length_cons]
        omega
      | cons p pre' =>
        obtain ⟨-, hrest⟩ := (List.cons.injEq ..).mp hsplit
        exact ih ((x :: xs).drop (c + 1))
          (by simp only [List.length_drop, List.length_cons] at hl ⊢; omega)
          pre' ch post hrest hpost

/-! ### Metric-fold projections -/

theorem applyErrs_proj (ecs : List (Option String)) (st : MState) :
    (ecs.foldl applyErr st).user_msg_count = st.user_msg_count
    ∧ (ecs.foldl applyErr st).last_assistant_ts = st.last_assistant_ts
    ∧ (ecs.foldl applyErr st).start_time = st.start_time
    ∧ (ecs.foldl applyErr st).end_time = st.end_time
    ∧ (ecs.foldl applyErr st).response_times = st.response_times := by
  induction ecs generalizing st with
  | nil => exact ⟨rfl, rfl, rfl, rfl, rfl⟩
  | cons ec rest ih =>
    simp only [List.foldl_cons]
    exact (ih (applyErr st ec))

/-- A user step that keeps the user count at zero saw no text message, so it
is exactly the error fold over the content. -/
theorem userStep_no_user (st : MState) (content : MContent) (tv : Option (Option Int))
    (hcount : (userStep st content tv).user_msg_count = 0) :
    userStep st content tv = (contentScan content).2.foldl applyErr st := by
  simp only [userStep] at hcount ⊢
  cases htx : (contentScan content).1 with
  | none => rfl
  | some s =>
    rw [htx] at hcount
    simp only at hcount
    exfalso
    cases tv with
    | none => simp at hcount
    | some pv =>
      cases pv with
      | none =>
        simp only at hcount
        cases hla : ((contentScan content).2.foldl applyErr st).last_assistant_ts with
        | none => rw [hla] at hcount; simp at hcount
        | some la => rw [hla] at hcount; cases la <;> simp at hcount
      | some tcur =>
        simp only at hcount
        cases hla : ((contentScan content).2.foldl applyErr st).last_assistant_ts with
        | none => rw [hla] at hcount; simp at hcount
        | some la =>
          rw [hla] at hcount
          cases la with
          | none => simp at hcount
          | some ta =>
            simp only at hcount
            split at hcount <;> simp at hcount

/-- One message preserves the invariant: a zero user count means no session
bounds have been set. -/
theorem metricsStep_no_user (st : MState) (m : Message)
    (hst : st.user_msg_count = 0 → st.start_time = none ∧ st.end_time = none)
    (hcount : (metricsStep st m).user_msg_count = 0) :
    (metricsStep st m).start_time = none ∧ (metricsStep st m).end_time = none := by
  simp only [metricsStep] at hcount ⊢
  by_cases hu : m.ty = "user"
  · rw [if_pos hu] at hcount ⊢
    have hna : ¬m.ty = "assistant" := by rw [hu]; decide
    rw [if_neg hna] at hcount ⊢
    cases hb : m.body with
    | none =>
      rw [hb] at hcount
      simp only at hcount ⊢
      exact hst hcount
    | some content =>
      rw [hb] at hcount
      simp only at hcount ⊢
      have he := userStep_no_user st content m.ts hcount
      rw [he] at hcount ⊢
      obtain ⟨hc1, -, hc3, hc4, -⟩ := applyErrs_proj (contentScan content).2 st
      rw [hc3, hc4]
      exact hst (by rw [← hc1]; exact hcount)
  · rw [if_neg hu] at hcount ⊢
    by_cases hasst : m.ty = "assistant"
    · rw [if_pos hasst] at hcount ⊢
      cases hb : m.body with
      | none =>
        rw [hb] at hcount
        simp only at hcount ⊢
        exact hst hcount
      | some content =>
        rw [hb] at hcount
        simp only at hcount ⊢
        exact hst hcount
    · rw [if_neg hasst] at hcount ⊢
      exact hst hcount

/-- A state reached with no user messages has no session bounds. -/
theorem metrics_no_user_no_time :
    ∀ (msgs : List Message) (st : MState),
      (st.user_msg_count = 0 → st.start_time = none ∧ st.end_time = none) →
      ((msgs.foldl metricsStep st).user_msg_count = 0 →
        (msgs.foldl metricsStep st).start_time = none
          ∧ (msgs.foldl metricsStep st).end_time = none) := by
  intro msgs
  induction msgs with
  | nil => intro st hst; exact hst
  | cons m rest ih =>
    intro st hst
    simp only [List.foldl_cons]
    exact ih (metricsStep st m) (metricsStep_no_user st m hst)

/-! ### Counter bumps -/

theorem lookupCount_cons_ne (k0 : String) (n : Nat) (rest : List (String × Nat))
    (k : String) (h : (k0 == k) = false) :
    lookupCount ((k0, n) :: rest) k = lookupCount rest k := by
  simp [lookupCount, List.find?, h]

theorem bumpCount_lookup_self (cats : List (String × Nat)) (k : String) :
    lookupCount (bumpCount cats k) k = lookupCount cats k + 1 := by
  induction cats with
  | nil => simp [bumpCount, lookupCount, List.find?]
  | cons p rest ih =>
    obtain ⟨k', n⟩ := p
    by_cases hk : k' = k
    · subst hk
      simp [bumpCount, lookupCount, List.find?]
    · have hbne : (k' == k) = false := by simp [hk]
      simp only [bumpCount, if_neg hk]
      rw [lookupCount_cons_ne k' n (bumpCount rest k) k hbne,
        lookupCount_cons_ne k' n rest k hbne, ih]

theorem bumpCount_lookup_ne (cats : List (String × Nat)) (k k' : String)
    (h : ¬k' = k) : lookupCount (bumpCount cats k) k' = lookupCount cats k' := by
  induction cats with
  | nil =>
    have hbne : (k == k') = false := by simp; intro he; exact h he.symm
    simp [bumpCount, lookupCount, List.find?, hbne]
  | cons p rest ih =>
    obtain ⟨k0, n⟩ := p
    by_cases hk : k0 = k
    · subst hk
      have hbne : (k0 == k') = false := by simp; intro he; exact h he.symm
      simp [bumpCount, lookupCount, List.find?, hbne]
    · simp only [bumpCount, if_neg hk]
      by_cases hk2 : k0 = k'
      · subst hk2
        simp [lookupCount, List.find?]
      · have hbne : (k0 == k') = false := by simp [hk2]
        rw [lookupCount_cons_ne k0 n (bumpCount rest k) k' hbne,
          lookupCount_cons_ne k0 n rest k' hbne, ih]

/-! ### Latency samples -/

/-- The response-times field after one user step: the prior samples plus the
window-checked delta, exactly when a text turn with a parsed timestamp
follows a parsed assistant timestamp. -/
theorem userStep_response (st : MState) (content : MContent) (tv : Option (Option Int)) :
    (userStep st content tv).response_times
      = st.response_times
        ++ (if (contentScan content).1.isSome then
              match tv, st.last_assistant_ts with
              | some (some tu), some (some ta) =>
                  if 2 < tu - ta ∧ tu - ta < 3600 then [tu - ta] else []
              | _, _ => []
            else []) := by
  obtain ⟨-, h2, -, -, h5⟩ := applyErrs_proj (contentScan content).2 st
  simp only [userStep]
  cases htx : (contentScan content).1 with
  | none => simp [h5]
  | some s =>
    simp only [Option.isSome_some, if_true]
    cases tv with
    | none => simp [h5]
    | some pv =>
      cases pv with
      | none =>
        simp only
        rw [h2]
        cases hla : st.last_assistant_ts with
        | none => simp [h5]
        | some la => cases la <;> simp [h5]
      | some tcur =>
        simp only
        rw [h2]
        cases hla : st.last_assistant_ts with
        | none => simp [h5]
        | some la =>
          cases la with
          | none => simp [h5]
          | some ta =>
            simp only
            by_cases hcond : 2 < tcur - ta ∧ tcur - ta < 3600
            · rw [if_pos hcond, if_pos hcond]
              simp [h5]
            · rw [if_neg hcond, if_neg hcond]
              simp [h5]

/-! ## The claims -/

/-- C1 (corrected): `extract_facets` performs no schema validation at all, so
facet results are not guaranteed well-typed.  What the code does guarantee:
a produced facet is always truthy and is exactly the recovered JSON object of
a successful response, tagged with the session id — collaborator errors,
unrecoverable text, and falsy recoveries all yield an absent facet. -/
theorem claim_C1 (resp : Except String String) (sid : String) (f : Json)
    (h : facet_from_response resp sid = some f) :
    pyTruthy f = true
    ∧ ∃ text j, resp = Except.ok text ∧ extract_json_object text = some j
        ∧ pyTruthy j = true ∧ f = jsonSetKey j "session_id" sid := by
  refine ⟨facet_from_response_truthy h, ?_⟩
  cases resp with
  | error e => simp [facet_from_response] at h
  | ok text =>
    refine ⟨text, ?_⟩
    simp only [facet_from_response] at h
    cases hx : extract_json_object text with
    | none => rw [hx] at h; simp at h
    | some j =>
      rw [hx] at h
      simp only at h
      by_cases ht : pyTruthy j
      · rw [if_pos ht] at h
        exact ⟨j, rfl, rfl, ht, (Option.some.inj h).symm⟩
      · rw [if_neg ht] at h; simp at h

/-- C1 witness: the amended theorem at a concrete ill-typed response. -/
theorem claim_C1_witness :
    pyTruthy (Json.obj [("outcome", Json.str "banana"), ("session_id", Json.str "s1")]) = true
    ∧ ∃ text j, (Except.ok bananaFacetText : Except String String) = Except.ok text
        ∧ extract_json_object text = some j ∧ pyTruthy j = true
        ∧ Json.obj [("outcome", Json.str "banana"), ("session_id", Json.str "s1")]
            = jsonSetKey j "session_id" "s1" :=
  claim_C1 (Except.ok bananaFacetText) "s1"
    (Json.obj [("outcome", Json.str "banana"), ("session_id", Json.str "s1")]) (by rfl)

/-- C1 counterexample: a response whose object carries `outcome = banana`,
outside the documented closed set, is returned as a facet and is written to
the cache — an ill-typed facet is both produced and cached. -/
theorem claim_C1_counterexample :
    facet_from_response (Except.ok bananaFacetText) "s1"
        = some (Json.obj [("outcome", Json.str "banana"), ("session_id", Json.str "s1")])
    ∧ wellTypedFacet (Json.obj [("outcome", Json.str "banana"), ("session_id", Json.str "s1")])
        = false
    ∧ updatedCache (fun _ => none) "s1"
          (processSession (fun _ => none) (Except.ok bananaFacetText) "s1") "s1"
        = some (Json.obj [("outcome", Json.str "banana"), ("session_id", Json.str "s1")]) :=
  ⟨rfl, rfl, rfl⟩

/-- C2 (confirmed): recovery of a well-formed object document surrounded by
free text succeeds and returns exactly that object — the decode starts at the
first `\x7b`, and braces inside string values do not truncate it; on the
specification's example the recovered object is the singleton with the brace
valued key `a`. -/
theorem claim_C2 (pre objS post : String) (kvs : List (String × Json))
    (hpre : ∀ c ∈ pre.toList, ¬c = '\x7b')
    (hobj : rawDecode objS.toList = some (Json.obj kvs, [])) :
    extract_json_object (pre ++ objS ++ post) = some (Json.obj kvs)
    ∧ extract_json_object exampleC2Text = some (Json.obj [("a", Json.str "\x7d")]) :=
  ⟨extract_json_object_parts hpre hobj, by rfl⟩

/-- C2 witness: the general theorem applied to the specification's concrete
example text. -/
theorem claim_C2_witness :
    extract_json_object (exampleC2Pre ++ exampleC2Obj ++ exampleC2Post)
        = some (Json.obj [("a", Json.str "\x7d")])
    ∧ extract_json_object exampleC2Text = some (Json.obj [("a", Json.str "\x7d")]) :=
  claim_C2 exampleC2Pre exampleC2Obj exampleC2Post [("a", Json.str "\x7d")]
    (by decide) (by rfl)

/-- C3 (confirmed): with a populated truthy cache entry the session run
returns the cached facet with zero collaborator calls and no extraction; and
after any first run that produced a facet, a second run over the updated
cache returns the identical facet with zero collaborator calls. -/
theorem claim_C3 (cache : String → Option Json) (respond respond2 : Except String String)
    (sid : String) :
    (∀ c, cache sid = some c → pyTruthy c = true →
        processSession cache respond sid = ⟨some c, 0, false⟩)
    ∧ (∀ f, (processSession cache respond sid).facet = some f →
        processSession (updatedCache cache sid (processSession cache respond sid)) respond2 sid
          = ⟨some f, 0, false⟩) := by
  constructor
  · intro c hc ht
    simp [processSession, load_cached_facet, hc, ht]
  · intro f hf
    cases hc : cache sid with
    | some c =>
      by_cases ht : pyTruthy c = true
      · have hrun : processSession cache respond sid = ⟨some c, 0, false⟩ := by
          simp [processSession, load_cached_facet, hc, ht]
        rw [hrun] at hf
        obtain rfl := Option.some.inj hf
        simp [updatedCache, hrun, processSession, load_cached_facet, hc, ht]
      · have hrun : processSession cache respond sid
            = ⟨facet_from_response respond sid, 1, true⟩ := by
          simp [processSession, load_cached_facet, hc, ht]
        rw [hrun] at hf
        simp only at hf
        have htr := facet_from_response_truthy hf
        have huc : updatedCache cache sid (processSession cache respond sid)
            = fun k => if k = sid then some f else cache k := by
          rw [hrun]
          simp [updatedCache, hf]
        rw [huc]
        simp [processSession, load_cached_facet, htr]
    | none =>
      have hrun : processSession cache respond sid
          = ⟨facet_from_response respond sid, 1, true⟩ := by
        simp [processSession, load_cached_facet, hc]
      rw [hrun] at hf
      simp only at hf
      have htr := facet_from_response_truthy hf
      have huc : updatedCache cache sid (processSession cache respond sid)
          = fun k => if k = sid then some f else cache k := by
        rw [hrun]
        simp [updatedCache, hf]
      rw [huc]
      simp [processSession, load_cached_facet, htr]

/-- C3 witness: a cached run at a concrete populated cache, and a second run
following a concrete extraction run, both with zero collaborator calls. -/
theorem claim_C3_witness :
    processSession (fun _ => some cachedFacetEx) (Except.error "down") "s"
        = ⟨some cachedFacetEx, 0, false⟩
    ∧ processSession
          (updatedCache (fun _ => none) "s"
            (processSession (fun _ => none) (Except.ok bananaFacetText) "s"))
          (Except.error "down") "s"
        = ⟨some (Json.obj [("outcome", Json.str "banana"), ("session_id", Json.str "s")]),
            0, false⟩ :=
  ⟨(claim_C3 (fun _ => some cachedFacetEx) (Except.error "down") (Except.error "down") "s").1
      cachedFacetEx rfl rfl,
   (claim_C3 (fun _ => none) (Except.ok bananaFacetText) (Except.error "down") "s").2
      (Json.obj [("outcome", Json.str "banana"), ("session_id", Json.str "s")]) (by rfl)⟩

/-- C4 (corrected): `save_facet` opens the cache entry itself with
`O_WRONLY | O_CREAT | O_TRUNC` and mode `0o600` and writes into it in place —
there is no temporary file and no rename, so the write is not atomic: a full
run does leave the new serialized facet, but an interrupted run can leave a
state that is neither the previous content nor the new one. -/
theorem claim_C4 (old s : String) :
    applyFsSteps old (save_facet_steps s) = s
    ∧ save_facet_steps s = [FsStep.openTruncCreate 0o600, FsStep.writeData s]
    ∧ (¬old = "" → ¬s = "" →
        ∃ k, ¬applyFsSteps old ((save_facet_steps s).take k) = old
          ∧ ¬applyFsSteps old ((save_facet_steps s).take k) = s) :=
  ⟨rfl, rfl, fun h1 h2 => ⟨1, fun he => h1 he.symm, fun he => h2 he.symm⟩⟩

/-- C4 witness: the intermediate state at a concrete previous and new
content. -/
theorem claim_C4_witness :
    ∃ k, ¬applyFsSteps "OLD" ((save_facet_steps "NEW").take k) = "OLD"
      ∧ ¬applyFsSteps "OLD" ((save_facet_steps "NEW").take k) = "NEW" :=
  (claim_C4 "OLD" "NEW").2.2 (by decide) (by decide)

/-- C4 counterexample: interrupting `save_facet` after the truncating open
leaves the cache entry empty — a truncated entry that is neither the complete
previous content nor the complete new facet. -/
theorem claim_C4_counterexample :
    save_facet_steps "NEW" = [FsStep.openTruncCreate 0o600, FsStep.writeData "NEW"]
    ∧ applyFsSteps "OLD" ((save_facet_steps "NEW").take 1) = ""
    ∧ ¬("" : String) = "OLD" ∧ ¬("" : String) = "NEW" :=
  ⟨rfl, rfl, by decide, by decide⟩

/-- C5 (corrected): collaborator and recovery failures are isolated — when
every cache write succeeds, the batch loop completes with one result per
item, failed items yielding an absent facet — but a failing `save_facet` is
uncaught in the result loop and aborts the run (see the counterexample). -/
theorem claim_C5 (save : Json → Except String Unit) (items : List BatchItem)
    (hsave : ∀ f, save f = Except.ok ()) :
    runBatch save items
      = Except.ok (items.map (fun it => (it.sid, facet_from_response it.resp it.sid))) := by
  simp only [runBatch]
  exact processResults_ok hsave _

/-- C5 witness: a two-item batch in which one collaborator call fails; the
other item still produces and saves its facet. -/
theorem claim_C5_witness :
    runBatch (fun _ => Except.ok ())
        [⟨"a", Except.error "collaborator failure"⟩, ⟨"b", Except.ok bananaFacetText⟩]
      = Except.ok [("a", none),
          ("b", some (Json.obj [("outcome", Json.str "banana"), ("session_id", Json.str "b")]))] := by
  have h := claim_C5 (fun _ => Except.ok ())
    [⟨"a", Except.error "collaborator failure"⟩, ⟨"b", Except.ok bananaFacetText⟩]
    (fun _ => rfl)
  exact h.trans (by rfl)

/-- C5 counterexample: a failing cache write on the first item aborts the
whole batch — the second item never yields a result, so per-item failure
isolation does not extend to cache-write errors. -/
theorem claim_C5_counterexample :
    runBatch (fun _ => Except.error "disk full")
        [⟨"a", Except.ok bananaFacetText⟩, ⟨"b", Except.ok bananaFacetText⟩]
      = Except.error "disk full" := by rfl

/-- C6 (confirmed): for every chunk size of at least one, the chunker cuts
the transcript into contiguous chunks — every chunk at most the chunk size,
every non-final chunk exactly the chunk size — and concatenating the chunks
in order reproduces the transcript exactly; the summarizer uses chunk size
`CHUNK_SIZE`. -/
theorem claim_C6 (C : Nat) (hC : 1 ≤ C) (transcript : List Char) :
    (chunkSplit C transcript).flatten = transcript
    ∧ (∀ ch ∈ chunkSplit C transcript, ch.length ≤ C)
    ∧ (∀ pre ch post, chunkSplit C transcript = pre ++ ch :: post → post ≠ [] →
        ch.length = C)
    ∧ transcriptChunks transcript = chunkSplit CHUNK_SIZE transcript := by
  obtain ⟨c, rfl⟩ : ∃ c, C = c + 1 := ⟨C - 1, by omega⟩
  exact ⟨chunkSplit_join c transcript.length transcript le_rfl,
    chunkSplit_length_le c transcript.length transcript le_rfl,
    chunkSplit_full c transcript.length transcript le_rfl,
    rfl⟩

/-- C6 witness: the round trip at chunk size three over a concrete eight
character transcript. -/
theorem claim_C6_witness :
    (chunkSplit 3 "abcdefgh".toList).flatten = "abcdefgh".toList
    ∧ (∀ ch ∈ chunkSplit 3 "abcdefgh".toList, ch.length ≤ 3)
    ∧ (∀ pre ch post, chunkSplit 3 "abcdefgh".toList = pre ++ ch :: post → post ≠ [] →
        ch.length = 3)
    ∧ transcriptChunks "abcdefgh".toList = chunkSplit CHUNK_SIZE "abcdefgh".toList :=
  claim_C6 3 (by decide) "abcdefgh".toList

/-- C7 (confirmed): a session is excluded exactly when its user count is
below two or its duration in minutes is below one; a zero-user session has
duration zero (its bounds are never set); a single-text-turn session is
excluded and a concrete two-turn one-minute session is included. -/
theorem claim_C7 (msgs : List Message) :
    (trivial_session_filter (extract_session_metrics msgs) = false ↔
      2 ≤ (extract_session_metrics msgs).user_msg_count
        ∧ 1 ≤ duration_minutes (extract_session_metrics msgs))
    ∧ ((extract_session_metrics msgs).user_msg_count = 0 →
        duration_minutes (extract_session_metrics msgs) = 0)
    ∧ trivial_session_filter (extract_session_metrics [userTextMsg 0 "a"]) = true
    ∧ trivial_session_filter
        (extract_session_metrics [userTextMsg 0 "a", userTextMsg 60 "b"]) = false := by
  refine ⟨?_, ?_, by decide, by decide⟩
  · simp [trivial_session_filter, not_lt]
  · intro h0
    obtain ⟨hs, -⟩ := metrics_no_user_no_time msgs initialState (fun _ => ⟨rfl, rfl⟩) h0
    simp [duration_minutes, extract_session_metrics, hs]

/-- C7 witness: the empty session has duration zero. -/
theorem claim_C7_witness :
    duration_minutes (extract_session_metrics ([] : List Message)) = 0 :=
  (claim_C7 []).2.1 (by rfl)

/-- C8 (confirmed): each metric step appends to the response-latency samples
exactly the window-checked delta of a user text turn after a timestamped
assistant turn — strictly more than 2 and strictly less than 3600 seconds,
discarded otherwise, never clamped; concretely a 5 second delta is recorded
and a 4000 second delta is not. -/
theorem claim_C8 (st : MState) (m : Message) :
    (metricsStep st m).response_times = st.response_times ++ latencySample st m
    ∧ (extract_session_metrics [asstMsg 100, userTextMsg 105 "hi"]).response_times = [5]
    ∧ (extract_session_metrics [asstMsg 100, userTextMsg 4100 "hi"]).response_times = [] := by
  refine ⟨?_, by decide, by decide⟩
  by_cases hu : m.ty = "user"
  · have hna : ¬m.ty = "assistant" := by rw [hu]; decide
    simp only [metricsStep, latencySample, if_pos hu, if_neg hna]
    cases hb : m.body with
    | none => simp
    | some content => exact userStep_response st content m.ts
  · simp only [metricsStep, latencySample, if_neg hu]
    by_cases ha : m.ty = "assistant"
    · simp only [if_pos ha]
      cases hb : m.body with
      | none => simp
      | some content => simp
    · simp only [if_neg ha]
      simp

/-- C9 (confirmed): the error classifier equals first-match over the fixed
priority table (command failure, user rejection, edit failure, stale file,
oversize, not found), returns the fallback exactly when no pattern matches,
and an error tool result bumps exactly the one matched category counter; a
message matching both the rejection and the command-failure patterns gets the
earlier category. -/
theorem claim_C9 (s : String) (st : MState) :
    classify_tool_error s = firstMatchCategory s
    ∧ (classify_tool_error s = "Other" ↔
        errorCategoryTable.all
          (fun p => p.1.all (fun pat => !strContains (strLower s) pat)) = true)
    ∧ (metricsStep st (toolErrMsg s)).tool_errors = st.tool_errors + 1
    ∧ (metricsStep st (toolErrMsg s)).tool_error_categories
        = bumpCount st.tool_error_categories (classify_tool_error s)
    ∧ lookupCount (bumpCount st.tool_error_categories (classify_tool_error s))
          (classify_tool_error s)
        = lookupCount st.tool_error_categories (classify_tool_error s) + 1
    ∧ (∀ k, ¬k = classify_tool_error s →
        lookupCount (bumpCount st.tool_error_categories (classify_tool_error s)) k
          = lookupCount st.tool_error_categories k)
    ∧ classify_tool_error "User rejected: command exited with exit code 1"
        = "Command Failed" := by
  have hcat : classify_tool_error s = firstMatchCategory s
      ∧ (classify_tool_error s = "Other" ↔
          errorCategoryTable.all
            (fun p => p.1.all (fun pat => !strContains (strLower s) pat)) = true) := by
    simp only [classify_tool_error, firstMatchCategory, errorCategoryTable,
      List.find?, List.any_cons, List.any_nil, List.all_cons, List.all_nil]
    generalize strContains (strLower s) "exit code" = c1
    generalize strContains (strLower s) "rejected" = c2
    generalize strContains (strLower s) dwPattern = c3
    generalize strContains (strLower s) "string to replace not found" = c4
    generalize strContains (strLower s) "no changes" = c5
    generalize strContains (strLower s) "modified since read" = c6
    generalize strContains (strLower s) "exceeds maximum" = c7
    generalize strContains (strLower s) "too large" = c8
    generalize strContains (strLower s) "file not found" = c9
    generalize strContains (strLower s) "does not exist" = c10
    revert c1 c2 c3 c4 c5 c6 c7 c8 c9 c10
    decide
  exact ⟨hcat.1, hcat.2, rfl, rfl,
    bumpCount_lookup_self st.tool_error_categories (classify_tool_error s),
    fun k hk => bumpCount_lookup_ne st.tool_error_categories (classify_tool_error s) k hk,
    by decide⟩

/-- C9 witness: bumping the matched category leaves a different category's
count unchanged at a concrete error message. -/
theorem claim_C9_witness :
    lookupCount
        (bumpCount ([] : List (String × Nat))
          (classify_tool_error "command failed with exit code 1")) "Other"
      = lookupCount ([] : List (String × Nat)) "Other" :=
  (claim_C9 "command failed with exit code 1" initialState).2.2.2.2.2.1 "Other" (by decide)

/-- C10 (confirmed): a session id absent from the facets map is never
classified warmup-only, and such sessions always survive the warmup
re-filtering pass. -/
theorem claim_C10 (facets_map : String → Option Json) (sid : String)
    (h : facets_map sid = none) :
    is_warmup_only facets_map sid = false
    ∧ ∀ l : List NamedMetrics, ∀ m ∈ l, m.session_id = sid →
        m ∈ filterWarmups facets_map l := by
  have h1 : is_warmup_only facets_map sid = false := by
    simp [is_warmup_only, h]
  refine ⟨h1, fun l m hm hsid => ?_⟩
  simp only [filterWarmups]
  exact List.mem_filter.mpr ⟨hm, by simp [hsid, h1]⟩

/-- C10 witness: the predicate and the filter at an empty facets map. -/
theorem claim_C10_witness :
    is_warmup_only (fun _ => none) "s" = false
    ∧ ∀ l : List NamedMetrics, ∀ m ∈ l, m.session_id = "s" →
        m ∈ filterWarmups (fun _ => none) l :=
  claim_C10 (fun _ => none) "s" rfl

end EnhancedInsights
